import Mathlib

/-
Verification development for the page-cache core of a disk-backed storage
engine: an extendible hash table, an LRU-K replacer, and a buffer pool
manager.  The definitions below are shallow embeddings of the C++ sources
in src/container/hash/extendible_hash_table.cpp, src/buffer/lru_k_replacer.cpp
and src/buffer/buffer_pool_manager_instance.cpp.  Machine integers are
modelled as Nat/Int (page ids and frame ids are `int` in the source, with
-1 as the invalid sentinel); bounded bit masks `x & ((1 << d) - 1)` are
modelled as `x % 2 ^ d`; fallible paths (failed assertions, out-of-bounds
array indexing) are modelled as `Option` results returning `none`.
-/

namespace BusTub

/-! ### Association-list primitives

The C++ code uses `std::unordered_map` for the replacer's frame map and for
the buffer pool's page table (via the extendible hash table's contract).
They are modelled as association lists with first-match lookup, in-place
replacement on update, and first-match removal. -/

def alookup {β : Type} (f : Int) : List (Int × β) → Option β
  | [] => none
  | (g, n) :: rest => if g = f then some n else alookup f rest

def aupsert {β : Type} (f : Int) (n : β) : List (Int × β) → List (Int × β)
  | [] => [(f, n)]
  | (g, m) :: rest => if g = f then (f, n) :: rest else (g, m) :: aupsert f n rest

def aerase {β : Type} (f : Int) : List (Int × β) → List (Int × β)
  | [] => []
  | (g, m) :: rest => if g = f then rest else (g, m) :: aerase f rest

/-! ### Extendible hash table

Shallow embedding of `ExtendibleHashTable` from
src/container/hash/extendible_hash_table.cpp (the named source file).  The
C++ class is templated over the key and value; the templated `std::hash` is
modelled as an explicit `hash` parameter, and keys/values are specialised
to `Nat` (the source instantiates the template at `int` keys, for which
`std::hash` is the identity).  Buckets are shared between directory slots
through `shared_ptr`; sharing is modelled by keeping the buckets in a store
(`buckets : List Bucket`) and letting the directory hold store indices. -/

structure Bucket where
  items : List (Nat × Nat)
  depth : Nat
deriving DecidableEq

structure EHT where
  bucketSize : Nat
  globalDepth : Nat
  numBuckets : Nat
  buckets : List Bucket
  dir : List Nat
deriving DecidableEq

/-- Constructor: one empty bucket of local depth 0, directory of size 1. -/
def EHT.mkNew (bucketSize : Nat) : EHT :=
  { bucketSize := bucketSize, globalDepth := 0, numBuckets := 1,
    buckets := [⟨[], 0⟩], dir := [0] }

/-- Bucket::IsFull.  Modelled from the spec: a bucket is a bounded list of up
to `bucket_size` key-value pairs (the member function lives in the missing
header extendible_hash_table.h). -/
def Bucket.isFull (size : Nat) (b : Bucket) : Bool := size ≤ b.items.length

/-- Linear scan of Bucket::Find over the bucket's list. -/
def bucketFind (key : Nat) : List (Nat × Nat) → Option Nat
  | [] => none
  | (k, v) :: rest => if k = key then some v else bucketFind key rest

/-- Update-or-append scan used by Bucket::Insert once the bucket is known
not to be full. -/
def bucketUpdate (key val : Nat) : List (Nat × Nat) → List (Nat × Nat)
  | [] => [(key, val)]
  | (k, v) :: rest => if k = key then (key, val) :: rest else (k, v) :: bucketUpdate key val rest

/-- Bucket::Insert: rejects when full (before looking at the key), otherwise
updates an existing entry in place or appends. -/
def Bucket.insert (size : Nat) (key val : Nat) (b : Bucket) : Bool × Bucket :=
  if b.isFull size then (false, b)
  else (true, { b with items := bucketUpdate key val b.items })

/-- IndexOf: `hash(key) & ((1 << global_depth) - 1)`. -/
def indexOf (hash : Nat → Nat) (g : Nat) (key : Nat) : Nat := hash key % 2 ^ g

/-- GetSufix: `index & ((1 << depth) - 1)`. -/
def getSufix (index depth : Nat) : Nat := index % 2 ^ depth

/-- Dereference of a directory slot followed by the bucket store. -/
def EHT.bucketAt (t : EHT) (bi : Nat) : Bucket := t.buckets.getD bi ⟨[], 0⟩

/-- ExtendibleHashTable::Find: read the directory slot for the key and scan
that bucket. -/
def EHT.find (hash : Nat → Nat) (t : EHT) (key : Nat) : Option Nat :=
  bucketFind key (t.bucketAt (t.dir.getD (indexOf hash t.globalDepth key) 0)).items

/-- Copy loop of ReserveBucket: `for (i in [0, ori)) dir[i + ori] = dir[i]`,
reading and writing the same vector, expressed with an explicit iteration
count. -/
def reserveLoop (ori : Nat) : List Nat → Nat → Nat → List Nat
  | d, _, 0 => d
  | d, i, fuel + 1 => reserveLoop ori (d.set (i + ori) (d.getD i 0)) (i + 1) fuel

/-- ReserveBucket: increment the global depth, resize the directory to
`2 ^ global_depth` (resize truncates or pads with a default slot), and copy
every old slot `i` to slot `i + old_size`. -/
def EHT.reserveBucket (t : EHT) : EHT :=
  let g := t.globalDepth + 1
  let size := 2 ^ g
  let ori := t.dir.length
  let resized := t.dir.take size ++ List.replicate (size - t.dir.length) 0
  { t with globalDepth := g, dir := reserveLoop ori resized 0 ori }

/-- InsertNoLock: insert into the bucket designated by the current directory,
discarding the success flag. -/
def EHT.insertNoLock (hash : Nat → Nat) (t : EHT) (key val : Nat) : EHT :=
  let idx := indexOf hash t.globalDepth key
  let bi := t.dir.getD idx 0
  { t with buckets := t.buckets.set bi ((t.bucketAt bi).insert t.bucketSize key val).2 }

/-- RedistributeBucket: empty the old bucket and reinsert every held pair at
its current index. -/
def EHT.redistribute (hash : Nat → Nat) (oldIdx : Nat) (t : EHT) : EHT :=
  let items := (t.bucketAt oldIdx).items
  let t1 := { t with buckets := t.buckets.set oldIdx { t.bucketAt oldIdx with items := [] } }
  items.foldl (fun acc kv => acc.insertNoLock hash kv.1 kv.2) t1

/-- IncreaseLocalDepth: append a fresh bucket of depth `depth + 1`, rewrite
every directory slot below `2 ^ gdepth` whose low `depth + 1` bits equal
`(1 << depth) | (index mod 2 ^ depth)` to it (the `or` is an addition since
bit `depth` of the suffix is clear), bump the old bucket's depth,
redistribute, and count the new bucket. -/
def EHT.increaseLocalDepth (hash : Nat → Nat) (index depth gdepth oldIdx : Nat) (t : EHT) : EHT :=
  let newBIdx := t.buckets.length
  let withNew := { t with buckets := t.buckets ++ [(⟨[], depth + 1⟩ : Bucket)] }
  let newDepth := depth + 1
  let newIndex := 2 ^ depth + getSufix index depth
  let size := 2 ^ gdepth
  let dir1 := withNew.dir.enum.map
    fun (p : Nat × Nat) => if p.1 < size ∧ getSufix p.1 newDepth = newIndex then newBIdx else p.2
  let bumped :=
    { withNew with
      dir := dir1
      buckets := withNew.buckets.set oldIdx { withNew.bucketAt oldIdx with depth := depth + 1 } }
  let redist := bumped.redistribute hash oldIdx
  { redist with numBuckets := redist.numBuckets + 1 }

/-- One split iteration of Insert for a full target bucket: double the
directory when the bucket's local depth equals the global depth, then run
IncreaseLocalDepth at the key's (possibly recomputed) index. -/
def EHT.splitStep (hash : Nat → Nat) (t : EHT) (key : Nat) : EHT :=
  let idx := indexOf hash t.globalDepth key
  let bIdx := t.dir.getD idx 0
  let buck := t.bucketAt bIdx
  let t1 := if buck.depth = t.globalDepth then t.reserveBucket else t
  t1.increaseLocalDepth hash (indexOf hash t1.globalDepth key) buck.depth t1.globalDepth bIdx

/-- ExtendibleHashTable::Insert.  The C++ retries the whole insert after each
split; the recursion is bounded here by explicit fuel, `none` meaning the
retry loop did not finish within the given number of rounds. -/
def EHT.insert (hash : Nat → Nat) : Nat → EHT → Nat → Nat → Option EHT
  | 0, _, _, _ => none
  | fuel + 1, t, key, val =>
    let idx := indexOf hash t.globalDepth key
    let bIdx := t.dir.getD idx 0
    let buck := t.bucketAt bIdx
    if buck.isFull t.bucketSize then
      EHT.insert hash fuel (t.splitStep hash key) key val
    else
      some { t with buckets := t.buckets.set bIdx (buck.insert t.bucketSize key val).2 }

/-! ### LRU-K replacer

Shallow embedding of `LRUKReplacer` from src/buffer/lru_k_replacer.cpp.  The
companion header lru_k_replacer.h (declaring `LRUNode` and the list-head
helpers `GetKlessEviNode` / `GetKEvitNode`) is not part of the sources, so
those pieces are modelled from the spec where noted.  The two circular
sentinel lists are modelled as plain lists of frame ids (head = the node
right after the sentinel); `UnLinkNode` becomes `List.erase` on both lists,
which is faithful because a node is linked into at most one list. -/

/-- Modelled from the spec: the per-frame record of lru_k_replacer.h — frame
id, ring buffer of the most recent access timestamps with capacity K and the
oldest at the head, and the evictable flag.  A node fresh from
`new LRUNode(k, frame_id)` has an empty history and is not evictable (only
evictable nodes appear in a list, and `SetEvictable(f, true)` on a
non-evictable node is what links it). -/
structure LRUNode where
  frameId : Int
  hist : List Nat
  evi : Bool
deriving DecidableEq

/-- Modelled from the spec: LRUNode::Access pushes a timestamp onto the ring
buffer, dropping the oldest retained timestamp once K are held. -/
def LRUNode.access (k t : Nat) (n : LRUNode) : LRUNode :=
  if k ≤ n.hist.length then { n with hist := n.hist.tail ++ [t] }
  else { n with hist := n.hist ++ [t] }

/-- LRUNode::AccessCount, saturating at K because the ring buffer is bounded. -/
def LRUNode.accessCount (n : LRUNode) : Nat := n.hist.length

/-- LRUNode::AccessTime: the oldest retained timestamp — the earliest access
for a node with fewer than K accesses, and the K-th most recent access for a
node with K recorded accesses. -/
def LRUNode.accessTime (n : LRUNode) : Nat := n.hist.headD 0

structure LRUK where
  replSize : Nat
  k : Nat
  counter : Nat
  currSize : Nat
  nodes : List (Int × LRUNode)
  klessList : List Int
  kList : List Int
deriving DecidableEq

/-- LRUKReplacer constructor: empty map, empty lists, counters at zero. -/
def LRUK.mkNew (numFrames k : Nat) : LRUK :=
  { replSize := numFrames, k := k, counter := 0, currSize := 0,
    nodes := [], klessList := [], kList := [] }

/-- Access time of a frame's node as read through the map (0 when absent;
only ever evaluated on frames that are in the map). -/
def LRUK.timeOf (s : LRUK) (f : Int) : Nat :=
  ((alookup f s.nodes).map LRUNode.accessTime).getD 0

/-- InsertNodeToList: walk from the sentinel and link the node before the
first node with a strictly larger access time (ties therefore keep the
earlier-linked node in front). -/
def insertByTime (timeOf : Int → Nat) (f : Int) : List Int → List Int
  | [] => [f]
  | g :: rest => if timeOf f < timeOf g then f :: g :: rest else g :: insertByTime timeOf f rest

/-- LRUKReplacer::RecordAccess.  `none` models the failed
`BUSTUB_ASSERT((size_t)frame_id <= replacer_size_)` — note the source
compares with `<=` even though its message asks for strictly smaller; a
negative frame id wraps to a huge `size_t` and also fails.  Otherwise: take
a timestamp from the monotonic counter, create the node on first access,
push the timestamp, and when the node is evictable with at least K accesses
unlink it and re-insert it into the k-list at its sorted position. -/
def LRUK.recordAccess (s : LRUK) (f : Int) : Option LRUK :=
  if 0 ≤ f ∧ f.toNat ≤ s.replSize then
    let t := s.counter
    let n0 := (alookup f s.nodes).getD ⟨f, [], false⟩
    let n := n0.access s.k t
    let s1 := { s with counter := t + 1, nodes := aupsert f n s.nodes }
    if n.evi = true ∧ s.k ≤ n.accessCount then
      some { s1 with
             klessList := s1.klessList.erase f
             kList := insertByTime s1.timeOf f (s1.kList.erase f) }
    else some s1
  else none

/-- AddNodeToList: nodes with at least K accesses go to the k-list, others to
the kless-list, each at the position sorted by access time. -/
def LRUK.addNodeToList (s : LRUK) (f : Int) (n : LRUNode) : LRUK :=
  if s.k ≤ n.accessCount then { s with kList := insertByTime s.timeOf f s.kList }
  else { s with klessList := insertByTime s.timeOf f s.klessList }

/-- LRUKReplacer::SetEvictable: unknown frames are ignored; an
evictable-to-non-evictable transition unlinks the node and decrements
`curr_size`; the converse transition links it into the appropriate list and
increments `curr_size`. -/
def LRUK.setEvictable (s : LRUK) (f : Int) (b : Bool) : LRUK :=
  match alookup f s.nodes with
  | none => s
  | some node =>
    let last := node.evi
    let node1 := { node with evi := b }
    let s1 := { s with nodes := aupsert f node1 s.nodes }
    if last = true ∧ b = false then
      { s1 with
        klessList := s1.klessList.erase f
        kList := s1.kList.erase f
        currSize := s1.currSize - 1 }
    else if last = false ∧ b = true then
      let s2 := { s1 with
                  klessList := s1.klessList.erase f
                  kList := s1.kList.erase f }
      { s2.addNodeToList f node1 with currSize := s1.currSize + 1 }
    else s1

/-- LRUKReplacer::Remove: unknown frames are a no-op; a known non-evictable
frame fails the `BUSTUB_ASSERT(node->Evitable())` (`none`); otherwise the
node is unlinked, counted out and deleted. -/
def LRUK.remove (s : LRUK) (f : Int) : Option LRUK :=
  match alookup f s.nodes with
  | none => some s
  | some node =>
    if node.evi = true then
      some { s with
             klessList := s.klessList.erase f
             kList := s.kList.erase f
             currSize := s.currSize - 1
             nodes := aerase f s.nodes }
    else none

/-- LRUKReplacer::Evict.  With `curr_size == 0` it reports failure
(`some (none, s)`).  Otherwise EviNode drains the head of the kless-list,
else the head of the k-list (the head helpers are modelled from the spec),
unlinks it, erases it from the map and decrements `curr_size`; if both lists
were empty the source would dereference a null node (`none`). -/
def LRUK.evict (s : LRUK) : Option (Option Int × LRUK) :=
  if 0 < s.currSize then
    match s.klessList with
    | f :: rest =>
      some (some f, { s with klessList := rest, nodes := aerase f s.nodes,
                             currSize := s.currSize - 1 })
    | [] =>
      match s.kList with
      | f :: rest =>
        some (some f, { s with kList := rest, nodes := aerase f s.nodes,
                               currSize := s.currSize - 1 })
      | [] => none
  else some (none, s)

/-- Membership of a frame in the replacer's evictable set: a node exists and
its evictable flag is set. -/
def LRUK.evictableB (s : LRUK) (f : Int) : Bool :=
  ((alookup f s.nodes).map LRUNode.evi).getD false

/-- States of the replacer reachable from a freshly constructed one through
the public operations, where a step exists only when no assertion fails. -/
inductive RReach : LRUK → Prop where
  | init (numFrames k : Nat) : RReach (LRUK.mkNew numFrames k)
  | record {s s' : LRUK} (f : Int) : RReach s → s.recordAccess f = some s' → RReach s'
  | setEvi {s : LRUK} (f : Int) (b : Bool) : RReach s → RReach (s.setEvictable f b)
  | remove {s s' : LRUK} (f : Int) : RReach s → s.remove f = some s' → RReach s'
  | evict {s s' : LRUK} {r : Option Int} : RReach s → s.evict = some (r, s') → RReach s'

/-- Internal well-formedness of the replacer: the lists hold exactly the
evictable frames partitioned by access count, each strictly sorted by the
node's oldest retained timestamp; `curr_size` counts both lists; histories
are nonempty, bounded by the clock and pairwise disjoint across frames. -/
structure RInv (s : LRUK) : Prop where
  mapNodup : (s.nodes.map Prod.fst).Nodup
  klessNodup : s.klessList.Nodup
  kNodup : s.kList.Nodup
  disj : ∀ f, f ∈ s.klessList → f ∉ s.kList
  klessMem : ∀ f, f ∈ s.klessList ↔
    ∃ n, alookup f s.nodes = some n ∧ n.evi = true ∧ n.hist.length < s.k
  kMem : ∀ f, f ∈ s.kList ↔
    ∃ n, alookup f s.nodes = some n ∧ n.evi = true ∧ s.k ≤ n.hist.length
  klessSorted : s.klessList.Pairwise (fun a b => s.timeOf a < s.timeOf b)
  kSorted : s.kList.Pairwise (fun a b => s.timeOf a < s.timeOf b)
  sizeEq : s.currSize = s.klessList.length + s.kList.length
  histNe : ∀ f n, alookup f s.nodes = some n → n.hist ≠ []
  histLt : ∀ f n, alookup f s.nodes = some n → ∀ t ∈ n.hist, t < s.counter
  histDisj : ∀ f g nf ng, f ≠ g → alookup f s.nodes = some nf →
    alookup g s.nodes = some ng → ∀ t ∈ nf.hist, t ∉ ng.hist

/-- Concrete hash table used to exercise Insert: bucket size 2, one bucket
already holding keys 0 and 4 (both hash to slot 0 under the identity hash),
exactly the state reached by inserting (0, 1) then (4, 2) into a fresh
table. -/
def c4State : EHT :=
  { bucketSize := 2, globalDepth := 0, numBuckets := 1,
    buckets := [⟨[(0, 1), (4, 2)], 0⟩], dir := [0] }

/-- Concrete replacer state used to exercise Evict: capacity 3, K = 2,
frames 1, 2 and 3 recorded once each at times 0, 1, 2 and all made
evictable. -/
def c1State : LRUK :=
  { replSize := 3, k := 2, counter := 3, currSize := 3,
    nodes := [(1, ⟨1, [0], true⟩), (2, ⟨2, [1], true⟩), (3, ⟨3, [2], true⟩)],
    klessList := [1, 2, 3], kList := [] }

/-! ### Buffer pool manager

Shallow embedding of `BufferPoolManagerInstance`.  The repository carries two
revisions of buffer_pool_manager_instance.cpp; the embedding follows the
self-contained revision (src/unnamed/part_000), which manipulates the
`Page` fields directly and implements every path (the other revision goes
through an unavailable `Page` accessor API and never assigns the `page`
pointer it dereferences in `DeletePgImp`).  The page table — an
`ExtendibleHashTable<page_id_t, frame_id_t>` — is modelled through its map
contract (first-match association list with in-place upsert), and the disk
manager as a map from page id to the last written payload.  A page's payload
is abstracted to a single `Nat`.  `Option` results model out-of-bounds frame
indexing (`pages_[-1]`) and failed replacer assertions as `none`. -/

structure Frame where
  pageId : Int
  pinCount : Nat
  isDirty : Bool
  data : Nat
deriving DecidableEq

/-- ResetPage: zero the payload, clear the page id to INVALID_PAGE_ID = -1,
drop the pin count and the dirty bit. -/
def Frame.reset : Frame := ⟨-1, 0, false, 0⟩

structure BPM where
  poolSize : Nat
  frames : List Frame
  freeList : List Int
  table : List (Int × Int)
  repl : LRUK
  nextPageId : Int
  disk : List (Int × Nat)
deriving DecidableEq

/-- Constructor: every frame blank and on the free list, empty page table,
fresh replacer over `pool_size` frames. -/
def BPM.mkNew (poolSize k : Nat) : BPM :=
  { poolSize := poolSize
    frames := List.replicate poolSize Frame.reset
    freeList := (List.range poolSize).map Int.ofNat
    table := []
    repl := LRUK.mkNew poolSize k
    nextPageId := 0
    disk := [] }

/-- Indexing of the frame array by a C++ `int`: a negative index or one past
the end is out of bounds. -/
def frameAt (frames : List Frame) (fr : Int) : Option Frame :=
  if fr < 0 then none else frames[fr.toNat]?

/-- GetPage: `&pages_[frame_id]`. -/
def BPM.getPage (s : BPM) (fr : Int) : Option Frame := frameAt s.frames fr

/-- Write a frame value back into the frame array. -/
def BPM.setFrame (s : BPM) (fr : Int) (pg : Frame) : BPM :=
  { s with frames := s.frames.set fr.toNat pg }

/-- DiskManager::WritePage. -/
def BPM.dwrite (s : BPM) (pid : Int) (d : Nat) : BPM :=
  { s with disk := aupsert pid d s.disk }

/-- DiskManager::ReadPage of a page never written reads a blank block. -/
def BPM.dread (s : BPM) (pid : Int) : Nat := (alookup pid s.disk).getD 0

/-- GetReplacementFrame: pop the free list first, otherwise ask the replacer
for a victim; `some (none, _)` is the failure return (`frame_id = -1`,
`res = false`). -/
def BPM.getReplacementFrame (s : BPM) : Option (Option Int × BPM) :=
  match s.freeList with
  | fr :: rest => some (some fr, { s with freeList := rest })
  | [] =>
    match s.repl.evict with
    | none => none
    | some (none, r1) => some (none, { s with repl := r1 })
    | some (some fr, r1) => some (some fr, { s with repl := r1 })

/-- AllocPageHelper: allocate a fresh page id, write back the victim frame if
dirty, remap its old page to the `-1` sentinel, reset the frame, bind the new
id with pin count 1, record the access, pin it against eviction, and install
the new mapping. -/
def BPM.allocPageHelper (s : BPM) (fr : Int) : Option (Int × BPM) :=
  let pid := s.nextPageId
  let s0 := { s with nextPageId := s.nextPageId + 1 }
  match s0.getPage fr with
  | none => none
  | some page =>
    let s1 := if page.isDirty then s0.dwrite page.pageId page.data else s0
    let s2 := if page.pageId ≠ -1 then { s1 with table := aupsert page.pageId (-1) s1.table }
              else s1
    let s3 := s2.setFrame fr ⟨pid, 1, false, 0⟩
    match s3.repl.recordAccess fr with
    | none => none
    | some r1 =>
      some (pid, { s3 with repl := r1.setEvictable fr false, table := aupsert pid fr s3.table })

/-- NewPgImp: grab a replacement frame and run AllocPageHelper; returns the
allocated page id and its frame, or `none`-page when every frame is pinned. -/
def BPM.newPage (s : BPM) : Option (Option (Int × Int) × BPM) :=
  match s.getReplacementFrame with
  | none => none
  | some (none, s1) => some (none, s1)
  | some (some fr, s1) =>
    match s1.allocPageHelper fr with
    | none => none
    | some (pid, s2) => some (some (pid, fr), s2)

/-- FetchPgImp: pages absent from the page table fail outright; a resident
page is pinned and protected; a page behind the `-1` sentinel is reloaded
from disk into a replacement frame (write-back of the victim included). -/
def BPM.fetchPage (s : BPM) (pid : Int) : Option (Option Int × BPM) :=
  match alookup pid s.table with
  | none => some (none, s)
  | some fr =>
    if fr ≠ -1 then
      match s.getPage fr with
      | none => none
      | some page =>
        let s1 := s.setFrame fr { page with pinCount := page.pinCount + 1 }
        match s1.repl.recordAccess fr with
        | none => none
        | some r1 => some (some fr, { s1 with repl := r1.setEvictable fr false })
    else
      match s.getReplacementFrame with
      | none => none
      | some (none, s1) => some (none, s1)
      | some (some fr1, s1) =>
        match s1.getPage fr1 with
        | none => none
        | some page =>
          let s2 := if page.isDirty then s1.dwrite page.pageId page.data else s1
          let s3 := if page.pageId ≠ -1 then
                      { s2 with table := aupsert page.pageId (-1) s2.table }
                    else s2
          let s4 := s3.setFrame fr1 ⟨pid, 1, false, s3.dread pid⟩
          let s5 := { s4 with table := aupsert pid fr1 s4.table }
          match s5.repl.recordAccess fr1 with
          | none => none
          | some r1 => some (some fr1, { s5 with repl := r1.setEvictable fr1 false })

/-- UnpinPgImp: a page missing from the table reports false; otherwise the
code indexes `pages_` with whatever frame id the table returned — including
the `-1` sentinel — before checking the pin count; a positive pin count is
decremented, the dirty flag is or-ed, and the frame becomes evictable when
the pin count reaches zero. -/
def BPM.unpinPage (s : BPM) (pid : Int) (d : Bool) : Option (Bool × BPM) :=
  match alookup pid s.table with
  | none => some (false, s)
  | some fr =>
    match s.getPage fr with
    | none => none
    | some page =>
      if 0 < page.pinCount then
        let page1 :=
          { page with
            isDirty := if d then true else page.isDirty
            pinCount := page.pinCount - 1 }
        let s1 := s.setFrame fr page1
        let s2 := if page1.pinCount = 0 then { s1 with repl := s1.repl.setEvictable fr true }
                  else s1
        some (true, s2)
      else some (false, s)

/-- FlushPgImpLockFree: a page missing from the table reports false;
otherwise the frame the table names — again including the `-1` sentinel — is
written through to disk and its dirty flag cleared, pin count ignored. -/
def BPM.flushPage (s : BPM) (pid : Int) : Option (Bool × BPM) :=
  match alookup pid s.table with
  | none => some (false, s)
  | some fr =>
    match s.getPage fr with
    | none => none
    | some page =>
      some (true, (s.dwrite pid page.data).setFrame fr { page with isDirty := false })

/-- DeletePgImp: a page missing from the table reports false; a sentinel
entry is dropped from replacer and table and reports true; a resident pinned
page reports false; a resident unpinned page is written back when dirty,
reset, removed from replacer and table, and its frame appended to the free
list. -/
def BPM.deletePage (s : BPM) (pid : Int) : Option (Bool × BPM) :=
  match alookup pid s.table with
  | none => some (false, s)
  | some fr =>
    if fr ≠ -1 then
      match s.getPage fr with
      | none => none
      | some page =>
        if page.pinCount = 0 then
          let s1 := if page.isDirty then s.dwrite pid page.data else s
          let s2 := s1.setFrame fr Frame.reset
          match s2.repl.remove fr with
          | none => none
          | some r1 =>
            some (true,
              { s2 with
                repl := r1
                table := aerase pid s2.table
                freeList := s2.freeList ++ [fr] })
        else some (false, s)
    else
      match s.repl.remove fr with
      | none => none
      | some r1 => some (true, { s with repl := r1, table := aerase pid s.table })

/-- States of the buffer pool reachable from a fresh pool through the public
operations, where a step exists only when the source neither fails an
assertion nor indexes out of bounds. -/
inductive Reach : BPM → Prop where
  | init (poolSize k : Nat) : Reach (BPM.mkNew poolSize k)
  | newPg {s s' : BPM} {r : Option (Int × Int)} : Reach s → s.newPage = some (r, s') → Reach s'
  | fetch {s s' : BPM} (p : Int) {r : Option Int} :
      Reach s → s.fetchPage p = some (r, s') → Reach s'
  | unpin {s s' : BPM} (p : Int) (d : Bool) {r : Bool} :
      Reach s → s.unpinPage p d = some (r, s') → Reach s'
  | flush {s s' : BPM} (p : Int) {r : Bool} :
      Reach s → s.flushPage p = some (r, s') → Reach s'
  | delete {s s' : BPM} (p : Int) {r : Bool} :
      Reach s → s.deletePage p = some (r, s') → Reach s'

/-- Well-formedness of a buffer pool state: free frames are blank and
unknown to the replacer, frames are resident exactly when off the free list
and exactly when the replacer knows them, pinned frames are never evictable,
resident unpinned frames always are, the page table is mutually consistent
with the frame array, page ids are allocated below `next_page_id`, and the
replacer is internally well-formed. -/
structure BPMInv (s : BPM) : Prop where
  replCap : s.repl.replSize = s.poolSize
  framesLen : s.frames.length = s.poolSize
  freeNodup : s.freeList.Nodup
  freeFrame : ∀ fr ∈ s.freeList, s.getPage fr = some Frame.reset
  freeNoNode : ∀ fr ∈ s.freeList, alookup fr s.repl.nodes = none
  nodeResident : ∀ f n, alookup f s.repl.nodes = some n →
    ∃ pg, s.getPage f = some pg ∧ pg.pageId ≠ -1
  residentNode : ∀ fr pg, s.getPage fr = some pg → pg.pageId ≠ -1 →
    (alookup fr s.repl.nodes).isSome = true
  pinnedNotEvi : ∀ fr pg n, s.getPage fr = some pg → 0 < pg.pinCount →
    alookup fr s.repl.nodes = some n → n.evi = false
  unpinnedEvi : ∀ fr pg, s.getPage fr = some pg → pg.pageId ≠ -1 → pg.pinCount = 0 →
    ∃ n, alookup fr s.repl.nodes = some n ∧ n.evi = true
  tableKey : ∀ p fr, alookup p s.table = some fr → 0 ≤ p ∧ p < s.nextPageId
  tableVal : ∀ p fr, alookup p s.table = some fr → fr = -1 ∨
    ∃ pg, s.getPage fr = some pg ∧ pg.pageId = p
  residentTable : ∀ fr pg, s.getPage fr = some pg → pg.pageId ≠ -1 →
    alookup pg.pageId s.table = some fr
  tableNodup : (s.table.map Prod.fst).Nodup
  nextNonneg : 0 ≤ s.nextPageId
  rinv : RInv s.repl

/-- The one-frame pool (K = 2) right after NewPage: page 0 pinned in
frame 0, the free list drained, frame 0 known to the replacer as
non-evictable. -/
def pinnedState : BPM :=
  { poolSize := 1, frames := [⟨0, 1, false, 0⟩], freeList := [], table := [(0, 0)],
    repl := ⟨1, 2, 1, 0, [(0, ⟨0, [0], false⟩)], [], []⟩, nextPageId := 1, disk := [] }

/-- The one-frame pool after NewPage, UnpinPage(0), NewPage: page 1 occupies
the only frame and page 0 is left behind the `-1` sentinel entry of the page
table. -/
def sentinelState : BPM :=
  { poolSize := 1, frames := [⟨1, 1, false, 0⟩], freeList := [], table := [(0, -1), (1, 0)],
    repl := ⟨1, 2, 2, 0, [(0, ⟨0, [1], false⟩)], [], []⟩, nextPageId := 2, disk := [] }

/-! ### Association-list lemmas -/

theorem alookup_aupsert_self {β : Type} (f : Int) (n : β) (m : List (Int × β)) :
    alookup f (aupsert f n m) = some n := by
  induction m with
  | nil => simp [aupsert, alookup]
  | cons hd tl ih =>
    obtain ⟨a, v⟩ := hd
    simp only [aupsert]
    by_cases ha : a = f
    · rw [if_pos ha]; simp [alookup]
    · rw [if_neg ha]; simp only [alookup]; rw [if_neg ha]; exact ih

theorem alookup_aupsert_ne {β : Type} {f g : Int} (h : g ≠ f) (n : β) (m : List (Int × β)) :
    alookup g (aupsert f n m) = alookup g m := by
  have hfg : ¬ f = g := fun hh => h hh.symm
  induction m with
  | nil => simp only [aupsert, alookup]; rw [if_neg hfg]
  | cons hd tl ih =>
    obtain ⟨a, v⟩ := hd
    simp only [aupsert]
    by_cases ha : a = f
    · subst ha
      simp only [alookup]
      rw [if_neg hfg, if_neg hfg]
    · rw [if_neg ha]
      simp only [alookup]
      by_cases hg : a = g
      · rw [if_pos hg, if_pos hg]
      · rw [if_neg hg, if_neg hg]; exact ih

theorem alookup_aerase_ne {β : Type} {f g : Int} (h : g ≠ f) (m : List (Int × β)) :
    alookup g (aerase f m) = alookup g m := by
  have hfg : ¬ f = g := fun hh => h hh.symm
  induction m with
  | nil => rfl
  | cons hd tl ih =>
    obtain ⟨a, v⟩ := hd
    simp only [aerase]
    by_cases ha : a = f
    · subst ha
      rw [if_pos rfl]
      simp only [alookup]
      rw [if_neg hfg]
    · rw [if_neg ha]
      simp only [alookup]
      by_cases hg : a = g
      · rw [if_pos hg, if_pos hg]
      · rw [if_neg hg, if_neg hg]; exact ih

theorem alookup_none_of_not_mem {β : Type} {f : Int} {m : List (Int × β)}
    (h : f ∉ m.map Prod.fst) : alookup f m = none := by
  induction m with
  | nil => rfl
  | cons hd tl ih =>
    obtain ⟨a, v⟩ := hd
    simp only [List.map_cons, List.mem_cons] at h
    push_neg at h
    simp only [alookup]
    rw [if_neg (fun hh => h.1 hh.symm)]
    exact ih h.2

theorem mem_keys_of_alookup {β : Type} {f : Int} {m : List (Int × β)} {n : β}
    (h : alookup f m = some n) : f ∈ m.map Prod.fst := by
  induction m with
  | nil => simp [alookup] at h
  | cons hd tl ih =>
    obtain ⟨a, v⟩ := hd
    simp only [List.map_cons, List.mem_cons]
    by_cases ha : a = f
    · exact Or.inl ha.symm
    · simp only [alookup, if_neg ha] at h
      exact Or.inr (ih h)

theorem alookup_aerase_self {β : Type} {f : Int} {m : List (Int × β)}
    (h : (m.map Prod.fst).Nodup) : alookup f (aerase f m) = none := by
  induction m with
  | nil => rfl
  | cons hd tl ih =>
    obtain ⟨a, v⟩ := hd
    simp only [List.map_cons, List.nodup_cons] at h
    simp only [aerase]
    by_cases ha : a = f
    · rw [if_pos ha]
      exact alookup_none_of_not_mem (ha ▸ h.1)
    · rw [if_neg ha]
      simp only [alookup]
      rw [if_neg ha]
      exact ih h.2

theorem keys_aerase_sublist {β : Type} (f : Int) (m : List (Int × β)) :
    List.Sublist ((aerase f m).map Prod.fst) (m.map Prod.fst) := by
  induction m with
  | nil => simp [aerase]
  | cons hd tl ih =>
    obtain ⟨a, v⟩ := hd
    simp only [aerase]
    by_cases ha : a = f
    · rw [if_pos ha]
      simp only [List.map_cons]
      exact List.sublist_cons_self a (tl.map Prod.fst)
    · rw [if_neg ha]
      simp only [List.map_cons]
      exact ih.cons₂ a

theorem aerase_nodup {β : Type} {f : Int} {m : List (Int × β)}
    (h : (m.map Prod.fst).Nodup) : ((aerase f m).map Prod.fst).Nodup :=
  h.sublist (keys_aerase_sublist f m)

theorem keys_aupsert_subset {β : Type} (f : Int) (n : β) (m : List (Int × β)) :
    ∀ g, g ∈ (aupsert f n m).map Prod.fst → g = f ∨ g ∈ m.map Prod.fst := by
  induction m with
  | nil =>
    intro g hg
    simp only [aupsert, List.map_cons, List.map_nil, List.mem_singleton] at hg
    exact Or.inl hg
  | cons hd tl ih =>
    obtain ⟨a, v⟩ := hd
    intro g hg
    simp only [aupsert] at hg
    by_cases ha : a = f
    · rw [if_pos ha] at hg
      simp only [List.map_cons, List.mem_cons] at hg ⊢
      tauto
    · rw [if_neg ha] at hg
      simp only [List.map_cons, List.mem_cons] at hg ⊢
      rcases hg with hg | hg
      · tauto
      · rcases ih g hg with h1 | h1 <;> tauto

theorem aupsert_nodup {β : Type} {f : Int} {n : β} {m : List (Int × β)}
    (h : (m.map Prod.fst).Nodup) : ((aupsert f n m).map Prod.fst).Nodup := by
  induction m with
  | nil => simp [aupsert]
  | cons hd tl ih =>
    obtain ⟨a, v⟩ := hd
    simp only [List.map_cons, List.nodup_cons] at h
    simp only [aupsert]
    by_cases ha : a = f
    · rw [if_pos ha]
      simp only [List.map_cons, List.nodup_cons]
      exact ⟨ha ▸ h.1, h.2⟩
    · rw [if_neg ha]
      simp only [List.map_cons, List.nodup_cons]
      refine ⟨fun hmem => ?_, ih h.2⟩
      rcases keys_aupsert_subset f n tl a hmem with rfl | hmem
      · exact ha rfl
      · exact h.1 hmem

theorem aupsert_eq_of_alookup {β : Type} {f : Int} {n : β} {m : List (Int × β)}
    (h : alookup f m = some n) : aupsert f n m = m := by
  induction m with
  | nil => simp [alookup] at h
  | cons hd tl ih =>
    obtain ⟨a, v⟩ := hd
    by_cases ha : a = f
    · subst ha
      have hv : v = n := by
        simpa [alookup] using h
      subst hv
      simp [aupsert]
    · simp only [alookup, if_neg ha] at h
      simp only [aupsert]
      rw [if_neg ha, ih h]

/-! ### Sorted-insertion lemmas -/

theorem mem_insertByTime {T : Int → Nat} {f x : Int} {l : List Int} :
    x ∈ insertByTime T f l ↔ x = f ∨ x ∈ l := by
  induction l with
  | nil => simp [insertByTime]
  | cons g rest ih =>
    by_cases h : T f < T g
    · simp [insertByTime, h]
    · simp only [insertByTime, if_neg h, List.mem_cons, ih]
      tauto

theorem length_insertByTime (T : Int → Nat) (f : Int) (l : List Int) :
    (insertByTime T f l).length = l.length + 1 := by
  induction l with
  | nil => rfl
  | cons g rest ih =>
    by_cases h : T f < T g
    · simp [insertByTime, h]
    · simp [insertByTime, h, ih]

theorem insertByTime_nodup {T : Int → Nat} {f : Int} {l : List Int}
    (hf : f ∉ l) (h : l.Nodup) : (insertByTime T f l).Nodup := by
  induction l with
  | nil => simp [insertByTime]
  | cons g rest ih =>
    simp only [List.mem_cons] at hf
    push_neg at hf
    simp only [List.nodup_cons] at h
    by_cases hc : T f < T g
    · simp only [insertByTime, if_pos hc, List.nodup_cons, List.mem_cons]
      refine ⟨?_, h⟩
      push_neg
      exact ⟨hf.1, hf.2⟩
    · simp only [insertByTime, if_neg hc, List.nodup_cons]
      refine ⟨fun hm => ?_, ih hf.2 h.2⟩
      rcases mem_insertByTime.mp hm with rfl | hm
      · exact hf.1 rfl
      · exact h.1 hm

theorem insertByTime_sorted {T : Int → Nat} {f : Int} {l : List Int}
    (h : l.Pairwise (fun a b => T a < T b)) (hne : ∀ x ∈ l, T x ≠ T f) :
    (insertByTime T f l).Pairwise (fun a b => T a < T b) := by
  induction l with
  | nil => simp [insertByTime]
  | cons g rest ih =>
    rw [List.pairwise_cons] at h
    by_cases hc : T f < T g
    · simp only [insertByTime, if_pos hc]
      rw [List.pairwise_cons]
      refine ⟨fun x hx => ?_, List.pairwise_cons.mpr h⟩
      rcases List.mem_cons.mp hx with rfl | hx
      · exact hc
      · exact lt_trans hc (h.1 x hx)
    · have hgf : T g < T f := by
        have h1 := hne g (List.mem_cons_self g rest)
        omega
      simp only [insertByTime, if_neg hc]
      rw [List.pairwise_cons]
      refine ⟨fun x hx => ?_, ih h.2 (fun x hx => hne x (List.mem_cons_of_mem _ hx))⟩
      rcases mem_insertByTime.mp hx with rfl | hx
      · exact hgf
      · exact h.1 x hx

theorem pairwise_time_congr {l : List Int} {T T1 : Int → Nat}
    (h : ∀ x ∈ l, T x = T1 x) (hp : l.Pairwise (fun a b => T a < T b)) :
    l.Pairwise (fun a b => T1 a < T1 b) :=
  List.Pairwise.imp_of_mem (fun ha hb hr => by rw [← h _ ha, ← h _ hb]; exact hr) hp

/-! ### LRU node helper lemmas -/

theorem headD_mem_of_ne {l : List Nat} (h : l ≠ []) (d : Nat) : l.headD d ∈ l := by
  cases l with
  | nil => exact absurd rfl h
  | cons a t => simp

theorem headD_append {l : List Nat} (h : l ≠ []) (t d : Nat) :
    (l ++ [t]).headD d = l.headD d := by
  cases l with
  | nil => exact absurd rfl h
  | cons a r => simp

theorem access_evi (k t : Nat) (n : LRUNode) : (n.access k t).evi = n.evi := by
  unfold LRUNode.access
  split <;> rfl

theorem access_frameId (k t : Nat) (n : LRUNode) : (n.access k t).frameId = n.frameId := by
  unfold LRUNode.access
  split <;> rfl

theorem access_hist_ne (k t : Nat) (n : LRUNode) : (n.access k t).hist ≠ [] := by
  unfold LRUNode.access
  split <;> simp

theorem access_hist_subset {k t : Nat} {n : LRUNode} {x : Nat}
    (h : x ∈ (n.access k t).hist) : x ∈ n.hist ∨ x = t := by
  unfold LRUNode.access at h
  split at h <;> simp only [List.mem_append, List.mem_singleton] at h
  · rcases h with h | h
    · exact Or.inl (List.mem_of_mem_tail h)
    · exact Or.inr h
  · exact h

theorem access_hist_of_lt {k t : Nat} {n : LRUNode} (h : n.hist.length < k) :
    (n.access k t).hist = n.hist ++ [t] := by
  unfold LRUNode.access
  rw [if_neg (by omega)]

theorem access_hist_of_ge {k t : Nat} {n : LRUNode} (h : k ≤ n.hist.length) :
    (n.access k t).hist = n.hist.tail ++ [t] := by
  unfold LRUNode.access
  rw [if_pos h]

theorem access_length_of_lt {k t : Nat} {n : LRUNode} (h : n.hist.length < k) :
    (n.access k t).hist.length = n.hist.length + 1 := by
  rw [access_hist_of_lt h]
  simp

theorem access_length_of_ge {k t : Nat} {n : LRUNode} (h : k ≤ n.hist.length)
    (hne : n.hist ≠ []) : (n.access k t).hist.length = n.hist.length := by
  rw [access_hist_of_ge h]
  have : 0 < n.hist.length := List.length_pos.mpr hne
  simp [List.length_tail]
  omega

theorem accessTime_access_of_lt {k t : Nat} {n : LRUNode} (h : n.hist.length < k)
    (hne : n.hist ≠ []) : (n.access k t).accessTime = n.accessTime := by
  unfold LRUNode.accessTime
  rw [access_hist_of_lt h, headD_append hne]

theorem timeOf_some {s : LRUK} {f : Int} {n : LRUNode} (h : alookup f s.nodes = some n) :
    s.timeOf f = n.accessTime := by
  simp [LRUK.timeOf, h]

/-- A frame on either replacer list is in exactly one of them, in the list
matching its node's access count. -/
theorem rinv_mem_split {s : LRUK} (h : RInv s) {f : Int} {n : LRUNode}
    (hl : alookup f s.nodes = some n) (he : n.evi = true) :
    (f ∈ s.klessList ∧ f ∉ s.kList ∧ n.hist.length < s.k) ∨
      (f ∈ s.kList ∧ f ∉ s.klessList ∧ s.k ≤ n.hist.length) := by
  rcases lt_or_ge n.hist.length s.k with hc | hc
  · have hm : f ∈ s.klessList := (h.klessMem f).mpr ⟨n, hl, he, hc⟩
    exact Or.inl ⟨hm, h.disj f hm, hc⟩
  · have hm : f ∈ s.kList := (h.kMem f).mpr ⟨n, hl, he, hc⟩
    have : f ∉ s.klessList := by
      intro hmem
      exact (h.disj f hmem) hm
    exact Or.inr ⟨hm, this, hc⟩

/-- Frames on the lists carry distinct access times: the oldest retained
timestamp of a frame's node lies in its history, and histories are pairwise
disjoint. -/
theorem times_distinct {s : LRUK} (h : RInv s) {f g : Int} {nf ng : LRUNode}
    (hf : alookup f s.nodes = some nf) (hg : alookup g s.nodes = some ng)
    (hfg : f ≠ g) : s.timeOf f ≠ s.timeOf g := by
  rw [timeOf_some hf, timeOf_some hg]
  intro heq
  have h1 : nf.accessTime ∈ nf.hist := headD_mem_of_ne (h.histNe f nf hf) 0
  have h2 : ng.accessTime ∈ ng.hist := headD_mem_of_ne (h.histNe g ng hg) 0
  exact (h.histDisj f g nf ng hfg hf hg nf.accessTime h1) (heq ▸ h2)

/-- Access times seen through a map updated at `f` with a node of unchanged
access time agree with the old ones everywhere. -/
theorem timeOf_upsert_keep {s : LRUK} {f : Int} {node n1 : LRUNode}
    (hlook : alookup f s.nodes = some node) (hacc : n1.accessTime = node.accessTime)
    (s1 : LRUK) (hs1 : s1.nodes = aupsert f n1 s.nodes) (g : Int) :
    s1.timeOf g = s.timeOf g := by
  simp only [LRUK.timeOf, hs1]
  by_cases hg : g = f
  · subst hg
    rw [alookup_aupsert_self, hlook]
    simp [hacc]
  · rw [alookup_aupsert_ne hg]

theorem rinv_setEvictable (s : LRUK) (f : Int) (b : Bool) (h : RInv s) :
    RInv (s.setEvictable f b) := by
  rcases hlook : alookup f s.nodes with _ | node
  · unfold LRUK.setEvictable
    rw [hlook]
    exact h
  · have hlook1 : ∀ g : Int, alookup g (aupsert f { node with evi := b } s.nodes) =
        if g = f then some { node with evi := b } else alookup g s.nodes := by
      intro g
      by_cases hg : g = f
      · rw [if_pos hg, hg]
        exact alookup_aupsert_self f _ s.nodes
      · rw [if_neg hg]
        exact alookup_aupsert_ne hg _ s.nodes
    have hnodup1 : ((aupsert f { node with evi := b } s.nodes).map Prod.fst).Nodup :=
      aupsert_nodup h.mapNodup
    have hacc1 : LRUNode.accessTime { node with evi := b } = node.accessTime := rfl
    have hhistne : node.hist ≠ [] := h.histNe f node hlook
    -- generic carriers for the history facts, shared by every branch
    have hselNe : ∀ g n', alookup g (aupsert f { node with evi := b } s.nodes) = some n' →
        n'.hist ≠ [] := by
      intro g n' hn'
      rw [hlook1 g] at hn'
      by_cases hg : g = f
      · rw [if_pos hg] at hn'
        cases hn'
        exact hhistne
      · rw [if_neg hg] at hn'
        exact h.histNe g n' hn'
    have hselLt : ∀ g n', alookup g (aupsert f { node with evi := b } s.nodes) = some n' →
        ∀ t ∈ n'.hist, t < s.counter := by
      intro g n' hn'
      rw [hlook1 g] at hn'
      by_cases hg : g = f
      · rw [if_pos hg] at hn'
        cases hn'
        exact h.histLt f node hlook
      · rw [if_neg hg] at hn'
        exact h.histLt g n' hn'
    have hselDisj : ∀ g g' n' n'', g ≠ g' →
        alookup g (aupsert f { node with evi := b } s.nodes) = some n' →
        alookup g' (aupsert f { node with evi := b } s.nodes) = some n'' →
        ∀ t ∈ n'.hist, t ∉ n''.hist := by
      intro g g' n' n'' hgg hn' hn''
      rw [hlook1 g] at hn'
      rw [hlook1 g'] at hn''
      by_cases hg : g = f
      · rw [if_pos hg] at hn'
        cases hn'
        have hg' : ¬ g' = f := fun hh => hgg (hg.trans hh.symm)
        rw [if_neg hg'] at hn''
        exact h.histDisj f g' node n'' (fun hh => hg' hh.symm) hlook hn''
      · rw [if_neg hg] at hn'
        by_cases hg' : g' = f
        · rw [if_pos hg'] at hn''
          cases hn''
          exact h.histDisj g f n' node hg hn' hlook
        · rw [if_neg hg'] at hn''
          exact h.histDisj g g' n' n'' hgg hn' hn''
    cases hevi : node.evi with
    | true =>
      cases b with
      | false =>
        -- evictable to non-evictable: unlink and shrink
        have hstep : s.setEvictable f false =
            { s with nodes := aupsert f { node with evi := false } s.nodes
                     klessList := s.klessList.erase f
                     kList := s.kList.erase f
                     currSize := s.currSize - 1 } := by
          simp only [LRUK.setEvictable, hlook]
          rw [if_pos (by simp [hevi])]
        rw [hstep]
        have ht : ∀ g : Int,
            LRUK.timeOf { s with nodes := aupsert f { node with evi := false } s.nodes
                                 klessList := s.klessList.erase f
                                 kList := s.kList.erase f
                                 currSize := s.currSize - 1 } g = s.timeOf g :=
          timeOf_upsert_keep hlook hacc1 _ rfl
        refine ⟨hnodup1, h.klessNodup.erase f, h.kNodup.erase f, ?_, ?_, ?_, ?_, ?_, ?_,
                hselNe, hselLt, hselDisj⟩
        · intro g hg hk
          exact h.disj g (List.mem_of_mem_erase hg) (List.mem_of_mem_erase hk)
        · intro g
          by_cases hg : g = f
          · subst hg
            constructor
            · intro hm
              exact absurd hm h.klessNodup.not_mem_erase
            · rintro ⟨n', hn', he', _⟩
              rw [hlook1 g, if_pos rfl] at hn'
              cases hn'
              simp at he'
          · rw [List.mem_erase_of_ne hg]
            rw [h.klessMem g]
            constructor
            · rintro ⟨n', hn', he', hc'⟩
              exact ⟨n', by rw [hlook1 g, if_neg hg]; exact hn', he', hc'⟩
            · rintro ⟨n', hn', he', hc'⟩
              rw [hlook1 g, if_neg hg] at hn'
              exact ⟨n', hn', he', hc'⟩
        · intro g
          by_cases hg : g = f
          · subst hg
            constructor
            · intro hm
              exact absurd hm h.kNodup.not_mem_erase
            · rintro ⟨n', hn', he', _⟩
              rw [hlook1 g, if_pos rfl] at hn'
              cases hn'
              simp at he'
          · rw [List.mem_erase_of_ne hg]
            rw [h.kMem g]
            constructor
            · rintro ⟨n', hn', he', hc'⟩
              exact ⟨n', by rw [hlook1 g, if_neg hg]; exact hn', he', hc'⟩
            · rintro ⟨n', hn', he', hc'⟩
              rw [hlook1 g, if_neg hg] at hn'
              exact ⟨n', hn', he', hc'⟩
        · exact pairwise_time_congr (fun x _ => (ht x).symm)
            (h.klessSorted.sublist (List.erase_sublist f s.klessList))
        · exact pairwise_time_congr (fun x _ => (ht x).symm)
            (h.kSorted.sublist (List.erase_sublist f s.kList))
        · rcases rinv_mem_split h hlook hevi with ⟨hm, hnm, _⟩ | ⟨hm, hnm, _⟩
          · have h1 : (s.klessList.erase f).length = s.klessList.length - 1 :=
              List.length_erase_of_mem hm
            have h2 : s.kList.erase f = s.kList := List.erase_of_not_mem hnm
            have h3 : 0 < s.klessList.length := List.length_pos_of_mem hm
            have h4 := h.sizeEq
            simp only [h1, h2]
            omega
          · have h1 : (s.kList.erase f).length = s.kList.length - 1 :=
              List.length_erase_of_mem hm
            have h2 : s.klessList.erase f = s.klessList := List.erase_of_not_mem hnm
            have h3 : 0 < s.kList.length := List.length_pos_of_mem hm
            have h4 := h.sizeEq
            simp only [h1, h2]
            omega
      | true =>
        -- no state transition: the node is rewritten with its own value
        have hnode : ({ node with evi := true } : LRUNode) = node := by
          cases node
          simp only at hevi
          rw [hevi]
        have hstep : s.setEvictable f true = s := by
          simp only [LRUK.setEvictable, hlook]
          rw [if_neg (by simp), if_neg (by simp [hevi])]
          rw [hnode, aupsert_eq_of_alookup hlook]
        rw [hstep]
        exact h
    | false =>
      cases b with
      | false =>
        have hnode : ({ node with evi := false } : LRUNode) = node := by
          cases node
          simp only at hevi
          rw [hevi]
        have hstep : s.setEvictable f false = s := by
          simp only [LRUK.setEvictable, hlook]
          rw [if_neg (by simp [hevi]), if_neg (by simp)]
          rw [hnode, aupsert_eq_of_alookup hlook]
        rw [hstep]
        exact h
      | true =>
        -- non-evictable to evictable: link into the matching list and grow
        have hnm1 : f ∉ s.klessList := by
          intro hm
          rcases (h.klessMem f).mp hm with ⟨n', hn', he', _⟩
          rw [hlook] at hn'
          cases hn'
          rw [hevi] at he'
          cases he'
        have hnm2 : f ∉ s.kList := by
          intro hm
          rcases (h.kMem f).mp hm with ⟨n', hn', he', _⟩
          rw [hlook] at hn'
          cases hn'
          rw [hevi] at he'
          cases he'
        have herase1 : s.klessList.erase f = s.klessList := List.erase_of_not_mem hnm1
        have herase2 : s.kList.erase f = s.kList := List.erase_of_not_mem hnm2
        have hstep : s.setEvictable f true =
            LRUK.addNodeToList
              { s with nodes := aupsert f { node with evi := true } s.nodes
                       klessList := s.klessList
                       kList := s.kList
                       currSize := s.currSize + 1 } f { node with evi := true } := by
          simp only [LRUK.setEvictable, hlook]
          rw [if_neg (by simp [hevi]), if_pos (by simp [hevi])]
          simp only [herase1, herase2]
          unfold LRUK.addNodeToList
          split
          · rfl
          · rfl
        rw [hstep]
        set s2 : LRUK :=
          { s with nodes := aupsert f { node with evi := true } s.nodes
                   klessList := s.klessList
                   kList := s.kList
                   currSize := s.currSize + 1 } with hs2
        have ht : ∀ g : Int, s2.timeOf g = s.timeOf g :=
          timeOf_upsert_keep hlook hacc1 s2 rfl
        have htimes : ∀ x ∈ s.klessList ++ s.kList, s2.timeOf x ≠ s2.timeOf f := by
          intro x hx
          have hxf : x ≠ f := by
            intro hh
            rcases List.mem_append.mp hx with hx1 | hx1
            · exact hnm1 (hh ▸ hx1)
            · exact hnm2 (hh ▸ hx1)
          have hxn : ∃ nx, alookup x s.nodes = some nx := by
            rcases List.mem_append.mp hx with hx1 | hx1
            · rcases (h.klessMem x).mp hx1 with ⟨nx, hnx, _, _⟩
              exact ⟨nx, hnx⟩
            · rcases (h.kMem x).mp hx1 with ⟨nx, hnx, _, _⟩
              exact ⟨nx, hnx⟩
          rcases hxn with ⟨nx, hnx⟩
          rw [ht x, ht f]
          exact times_distinct h hnx hlook hxf
        unfold LRUK.addNodeToList
        by_cases hcnt : s2.k ≤ LRUNode.accessCount { node with evi := true }
        · rw [if_pos hcnt]
          have hcnt' : s.k ≤ node.hist.length := hcnt
          refine ⟨hnodup1, h.klessNodup, insertByTime_nodup hnm2 h.kNodup, ?_, ?_, ?_, ?_,
                  ?_, ?_, hselNe, hselLt, hselDisj⟩
          · intro g hg
            intro hk
            rcases mem_insertByTime.mp hk with rfl | hk
            · exact hnm1 hg
            · exact h.disj g hg hk
          · intro g
            by_cases hg : g = f
            · subst hg
              constructor
              · intro hm
                exact absurd hm hnm1
              · rintro ⟨n', hn', _, hc'⟩
                rw [hlook1 g, if_pos rfl] at hn'
                cases hn'
                simp only [LRUNode.accessCount] at hc'
                omega
            · rw [h.klessMem g]
              constructor
              · rintro ⟨n', hn', he', hc'⟩
                exact ⟨n', by rw [hlook1 g, if_neg hg]; exact hn', he', hc'⟩
              · rintro ⟨n', hn', he', hc'⟩
                rw [hlook1 g, if_neg hg] at hn'
                exact ⟨n', hn', he', hc'⟩
          · intro g
            by_cases hg : g = f
            · subst hg
              constructor
              · intro _
                exact ⟨{ node with evi := true }, by rw [hlook1 g, if_pos rfl], rfl, hcnt'⟩
              · intro _
                exact mem_insertByTime.mpr (Or.inl rfl)
            · rw [mem_insertByTime]
              rw [h.kMem g]
              constructor
              · rintro (rfl | ⟨n', hn', he', hc'⟩)
                · exact absurd rfl hg
                · exact ⟨n', by rw [hlook1 g, if_neg hg]; exact hn', he', hc'⟩
              · rintro ⟨n', hn', he', hc'⟩
                rw [hlook1 g, if_neg hg] at hn'
                exact Or.inr ⟨n', hn', he', hc'⟩
          · exact pairwise_time_congr (fun x hx => (ht x).symm) h.klessSorted
          · refine insertByTime_sorted ?_ ?_
            · exact pairwise_time_congr (fun x hx => (ht x).symm) h.kSorted
            · intro x hx
              exact htimes x (List.mem_append.mpr (Or.inr hx))
          · have h4 := h.sizeEq
            simp only [length_insertByTime]
            omega
        · rw [if_neg hcnt]
          have hcnt' : node.hist.length < s.k := by
            simp only [LRUNode.accessCount] at hcnt
            omega
          refine ⟨hnodup1, insertByTime_nodup hnm1 h.klessNodup, h.kNodup, ?_, ?_, ?_, ?_,
                  ?_, ?_, hselNe, hselLt, hselDisj⟩
          · intro g hg
            rcases mem_insertByTime.mp hg with rfl | hg
            · exact hnm2
            · exact h.disj g hg
          · intro g
            by_cases hg : g = f
            · subst hg
              constructor
              · intro _
                exact ⟨{ node with evi := true }, by rw [hlook1 g, if_pos rfl], rfl, hcnt'⟩
              · intro _
                exact mem_insertByTime.mpr (Or.inl rfl)
            · rw [mem_insertByTime]
              rw [h.klessMem g]
              constructor
              · rintro (rfl | ⟨n', hn', he', hc'⟩)
                · exact absurd rfl hg
                · exact ⟨n', by rw [hlook1 g, if_neg hg]; exact hn', he', hc'⟩
              · rintro ⟨n', hn', he', hc'⟩
                rw [hlook1 g, if_neg hg] at hn'
                exact Or.inr ⟨n', hn', he', hc'⟩
          · intro g
            by_cases hg : g = f
            · subst hg
              constructor
              · intro hm
                exact absurd hm hnm2
              · rintro ⟨n', hn', _, hc'⟩
                rw [hlook1 g, if_pos rfl] at hn'
                cases hn'
                simp only [LRUNode.accessCount] at hc'
                omega
            · rw [h.kMem g]
              constructor
              · rintro ⟨n', hn', he', hc'⟩
                exact ⟨n', by rw [hlook1 g, if_neg hg]; exact hn', he', hc'⟩
              · rintro ⟨n', hn', he', hc'⟩
                rw [hlook1 g, if_neg hg] at hn'
                exact ⟨n', hn', he', hc'⟩
          · refine insertByTime_sorted ?_ ?_
            · exact pairwise_time_congr (fun x hx => (ht x).symm) h.klessSorted
            · intro x hx
              exact htimes x (List.mem_append.mpr (Or.inl hx))
          · exact pairwise_time_congr (fun x hx => (ht x).symm) h.kSorted
          · have h4 := h.sizeEq
            simp only [length_insertByTime]
            omega

/-- Erasing an evictable frame from the map and from both lists, with the
count decremented, keeps the replacer well-formed (shared by Remove and
Evict). -/
theorem rinv_erase_all {s : LRUK} {f : Int} {node : LRUNode} (h : RInv s)
    (hlook : alookup f s.nodes = some node) (hevi : node.evi = true) :
    RInv { s with nodes := aerase f s.nodes
                  klessList := s.klessList.erase f
                  kList := s.kList.erase f
                  currSize := s.currSize - 1 } := by
  have hlookE : ∀ g : Int, g ≠ f → alookup g (aerase f s.nodes) = alookup g s.nodes :=
    fun g hg => alookup_aerase_ne hg s.nodes
  have hlookF : alookup f (aerase f s.nodes) = none := alookup_aerase_self h.mapNodup
  have ht : ∀ g : Int, g ≠ f →
      LRUK.timeOf { s with nodes := aerase f s.nodes
                           klessList := s.klessList.erase f
                           kList := s.kList.erase f
                           currSize := s.currSize - 1 } g = s.timeOf g := by
    intro g hg
    simp only [LRUK.timeOf]
    rw [hlookE g hg]
  refine ⟨aerase_nodup h.mapNodup, h.klessNodup.erase f, h.kNodup.erase f, ?_, ?_, ?_,
          ?_, ?_, ?_, ?_, ?_, ?_⟩
  · intro g hg hk
    exact h.disj g (List.mem_of_mem_erase hg) (List.mem_of_mem_erase hk)
  · intro g
    by_cases hg : g = f
    · subst hg
      constructor
      · intro hm
        exact absurd hm h.klessNodup.not_mem_erase
      · rintro ⟨n', hn', _, _⟩
        rw [hlookF] at hn'
        cases hn'
    · rw [List.mem_erase_of_ne hg, h.klessMem g]
      constructor
      · rintro ⟨n', hn', he', hc'⟩
        exact ⟨n', by rw [hlookE g hg]; exact hn', he', hc'⟩
      · rintro ⟨n', hn', he', hc'⟩
        rw [hlookE g hg] at hn'
        exact ⟨n', hn', he', hc'⟩
  · intro g
    by_cases hg : g = f
    · subst hg
      constructor
      · intro hm
        exact absurd hm h.kNodup.not_mem_erase
      · rintro ⟨n', hn', _, _⟩
        rw [hlookF] at hn'
        cases hn'
    · rw [List.mem_erase_of_ne hg, h.kMem g]
      constructor
      · rintro ⟨n', hn', he', hc'⟩
        exact ⟨n', by rw [hlookE g hg]; exact hn', he', hc'⟩
      · rintro ⟨n', hn', he', hc'⟩
        rw [hlookE g hg] at hn'
        exact ⟨n', hn', he', hc'⟩
  · refine pairwise_time_congr ?_ (h.klessSorted.sublist (List.erase_sublist f s.klessList))
    intro x hx
    exact (ht x ((h.klessNodup.mem_erase_iff.mp hx).1)).symm
  · refine pairwise_time_congr ?_ (h.kSorted.sublist (List.erase_sublist f s.kList))
    intro x hx
    exact (ht x ((h.kNodup.mem_erase_iff.mp hx).1)).symm
  · rcases rinv_mem_split h hlook hevi with ⟨hm, hnm, _⟩ | ⟨hm, hnm, _⟩
    · have h1 : (s.klessList.erase f).length = s.klessList.length - 1 :=
        List.length_erase_of_mem hm
      have h2 : s.kList.erase f = s.kList := List.erase_of_not_mem hnm
      have h3 : 0 < s.klessList.length := List.length_pos_of_mem hm
      have h4 := h.sizeEq
      simp only [h1, h2]
      omega
    · have h1 : (s.kList.erase f).length = s.kList.length - 1 :=
        List.length_erase_of_mem hm
      have h2 : s.klessList.erase f = s.klessList := List.erase_of_not_mem hnm
      have h3 : 0 < s.kList.length := List.length_pos_of_mem hm
      have h4 := h.sizeEq
      simp only [h1, h2]
      omega
  · intro g n' hn'
    by_cases hg : g = f
    · subst hg
      rw [hlookF] at hn'
      cases hn'
    · rw [hlookE g hg] at hn'
      exact h.histNe g n' hn'
  · intro g n' hn'
    by_cases hg : g = f
    · subst hg
      rw [hlookF] at hn'
      cases hn'
    · rw [hlookE g hg] at hn'
      exact h.histLt g n' hn'
  · intro g g' n' n'' hgg hn' hn''
    by_cases hg : g = f
    · subst hg
      rw [hlookF] at hn'
      cases hn'
    · by_cases hg' : g' = f
      · subst hg'
        rw [hlookF] at hn''
        cases hn''
      · rw [hlookE g hg] at hn'
        rw [hlookE g' hg'] at hn''
        exact h.histDisj g g' n' n'' hgg hn' hn''

theorem rinv_remove {s s' : LRUK} {f : Int} (h : RInv s) (hstep : s.remove f = some s') :
    RInv s' := by
  rcases hlook : alookup f s.nodes with _ | node
  · simp only [LRUK.remove, hlook, Option.some.injEq] at hstep
    rw [← hstep]
    exact h
  · rcases hevi : node.evi with _ | _
    · simp only [LRUK.remove, hlook, hevi] at hstep
      rw [if_neg (by simp)] at hstep
      cases hstep
    · simp only [LRUK.remove, hlook, hevi] at hstep
      rw [if_pos (by simp)] at hstep
      rw [Option.some.injEq] at hstep
      rw [← hstep]
      exact rinv_erase_all h hlook hevi

theorem rinv_evict {s s' : LRUK} {r : Option Int} (h : RInv s)
    (hstep : s.evict = some (r, s')) : RInv s' := by
  by_cases hc : 0 < s.currSize
  · rcases hkl : s.klessList with _ | ⟨f, rest⟩
    · rcases hk : s.kList with _ | ⟨f, rest⟩
      · simp only [LRUK.evict, if_pos hc, hkl, hk] at hstep
        cases hstep
      · simp only [LRUK.evict, if_pos hc, hkl, hk, Option.some.injEq, Prod.mk.injEq] at hstep
        have hm : f ∈ s.kList := by rw [hk]; exact List.mem_cons_self f rest
        rcases (h.kMem f).mp hm with ⟨node, hlook, hevi, _⟩
        have hstate := rinv_erase_all h hlook hevi
        have e1 : s.klessList.erase f = s.klessList := by
          rw [hkl]
          rfl
        have e2 : s.kList.erase f = rest := by
          rw [hk]
          exact List.erase_cons_head f rest
        rw [e1, e2, hkl] at hstate
        exact hstep.2 ▸ hstate
    · simp only [LRUK.evict, if_pos hc, hkl, Option.some.injEq, Prod.mk.injEq] at hstep
      have hm : f ∈ s.klessList := by rw [hkl]; exact List.mem_cons_self f rest
      rcases (h.klessMem f).mp hm with ⟨node, hlook, hevi, _⟩
      have hstate := rinv_erase_all h hlook hevi
      have e1 : s.klessList.erase f = rest := by
        rw [hkl]
        exact List.erase_cons_head f rest
      have e2 : s.kList.erase f = s.kList := by
        have : f ∉ s.kList := h.disj f hm
        exact List.erase_of_not_mem this
      rw [e1, e2] at hstate
      exact hstep.2 ▸ hstate
  · simp only [LRUK.evict, if_neg hc, Option.some.injEq, Prod.mk.injEq] at hstep
    exact hstep.2 ▸ h

theorem exists_lookup_upsert_ne {β : Type} {f g : Int} (hg : g ≠ f) (n : β)
    (m : List (Int × β)) (P : β → Prop) :
    (∃ x, alookup g (aupsert f n m) = some x ∧ P x) ↔ (∃ x, alookup g m = some x ∧ P x) := by
  rw [alookup_aupsert_ne hg]

/-- History well-formedness is preserved by writing at `f` a node whose
history is nonempty and drawn from the frame's old history plus the current
clock value. -/
theorem hist_facts_upsert {s : LRUK} (f : Int) (n : LRUNode) (h : RInv s)
    (hself_ne : n.hist ≠ [])
    (hself_sub : ∀ x ∈ n.hist,
      (∃ n0, alookup f s.nodes = some n0 ∧ x ∈ n0.hist) ∨ x = s.counter) :
    (∀ g n', alookup g (aupsert f n s.nodes) = some n' → n'.hist ≠ []) ∧
    ((∀ g n', alookup g (aupsert f n s.nodes) = some n' →
        ∀ x ∈ n'.hist, x < s.counter + 1) ∧
     (∀ g g' n' n'', g ≠ g' → alookup g (aupsert f n s.nodes) = some n' →
        alookup g' (aupsert f n s.nodes) = some n'' → ∀ x ∈ n'.hist, x ∉ n''.hist)) := by
  have hlookup1 : ∀ g : Int, g ≠ f → alookup g (aupsert f n s.nodes) = alookup g s.nodes :=
    fun g hg => alookup_aupsert_ne hg n s.nodes
  have hlookupf : alookup f (aupsert f n s.nodes) = some n := alookup_aupsert_self f n s.nodes
  refine ⟨?_, ?_, ?_⟩
  · intro g n' hn'
    by_cases hg : g = f
    · rw [hg, hlookupf] at hn'
      cases hn'
      exact hself_ne
    · rw [hlookup1 g hg] at hn'
      exact h.histNe g n' hn'
  · intro g n' hn' x hx
    by_cases hg : g = f
    · rw [hg, hlookupf] at hn'
      cases hn'
      rcases hself_sub x hx with ⟨n0, hn0, hx0⟩ | rfl
      · have := h.histLt f n0 hn0 x hx0
        omega
      · omega
    · rw [hlookup1 g hg] at hn'
      have := h.histLt g n' hn' x hx
      omega
  · intro g g' n' n'' hgg hn' hn'' x hx
    by_cases hg : g = f
    · rw [hg, hlookupf] at hn'
      cases hn'
      have hg'f : g' ≠ f := fun hh => hgg (hg.trans hh.symm)
      rw [hlookup1 g' hg'f] at hn''
      rcases hself_sub x hx with ⟨n0, hn0, hx0⟩ | rfl
      · exact h.histDisj f g' n0 n'' (fun hh => hg'f hh.symm) hn0 hn'' x hx0
      · intro hmem
        have := h.histLt g' n'' hn'' s.counter hmem
        omega
    · rw [hlookup1 g hg] at hn'
      by_cases hg' : g' = f
      · rw [hg', hlookupf] at hn''
        cases hn''
        intro hmem
        rcases hself_sub x hmem with ⟨n0, hn0, hx0⟩ | hxc
        · exact h.histDisj g f n' n0 (fun hh => hg (hh.trans hg'.symm ▸ hh)) hn' hn0 x hx hx0
        · rw [hxc] at hx
          have := h.histLt g n' hn' s.counter hx
          omega
      · rw [hlookup1 g' hg'] at hn''
        exact h.histDisj g g' n' n'' hgg hn' hn'' x hx

theorem rinv_recordAccess {s s' : LRUK} {f : Int} (h : RInv s)
    (hstep : s.recordAccess f = some s') : RInv s' := by
  by_cases hguard : 0 ≤ f ∧ f.toNat ≤ s.replSize
  case neg =>
    simp only [LRUK.recordAccess, if_neg hguard] at hstep
    cases hstep
  case pos =>
    rcases hlook : alookup f s.nodes with _ | n0
    · -- first access of the frame: a fresh, non-evictable node
      simp only [LRUK.recordAccess, if_pos hguard, hlook, Option.getD_none] at hstep
      rw [if_neg (by simp [access_evi])] at hstep
      rw [Option.some.injEq] at hstep
      subst hstep
      have hh : (LRUNode.access s.k s.counter ⟨f, [], false⟩).hist = [s.counter] := by
        unfold LRUNode.access
        split <;> rfl
      have hfacts := hist_facts_upsert f (LRUNode.access s.k s.counter ⟨f, [], false⟩) h
        (by rw [hh]; simp)
        (by intro x hx; rw [hh] at hx; simp at hx; exact Or.inr hx)
      have hmemless : f ∉ s.klessList := by
        intro hm
        rcases (h.klessMem f).mp hm with ⟨n', hn', _, _⟩
        rw [hlook] at hn'
        cases hn'
      have hmemk : f ∉ s.kList := by
        intro hm
        rcases (h.kMem f).mp hm with ⟨n', hn', _, _⟩
        rw [hlook] at hn'
        cases hn'
      have ht : ∀ g ∈ s.klessList ++ s.kList,
          LRUK.timeOf { s with counter := s.counter + 1
                               nodes := aupsert f (LRUNode.access s.k s.counter ⟨f, [], false⟩)
                                 s.nodes } g = s.timeOf g := by
        intro g hg
        have hgf : g ≠ f := by
          intro hh
          rcases List.mem_append.mp hg with hg1 | hg1
          · exact hmemless (hh ▸ hg1)
          · exact hmemk (hh ▸ hg1)
        simp only [LRUK.timeOf]
        rw [alookup_aupsert_ne hgf]
      refine ⟨aupsert_nodup h.mapNodup, h.klessNodup, h.kNodup, h.disj, ?_, ?_, ?_, ?_,
              h.sizeEq, hfacts.1, hfacts.2.1, hfacts.2.2⟩
      · intro g
        by_cases hg : g = f
        · subst hg
          constructor
          · intro hm
            exact absurd hm hmemless
          · rintro ⟨n', hn', he', _⟩
            rw [alookup_aupsert_self] at hn'
            cases hn'
            rw [access_evi] at he'
            cases he'
        · rw [h.klessMem g]
          exact (exists_lookup_upsert_ne hg _ s.nodes _).symm
      · intro g
        by_cases hg : g = f
        · subst hg
          constructor
          · intro hm
            exact absurd hm hmemk
          · rintro ⟨n', hn', he', _⟩
            rw [alookup_aupsert_self] at hn'
            cases hn'
            rw [access_evi] at he'
            cases he'
        · rw [h.kMem g]
          exact (exists_lookup_upsert_ne hg _ s.nodes _).symm
      · exact pairwise_time_congr
          (fun x hx => (ht x (List.mem_append.mpr (Or.inl hx))).symm) h.klessSorted
      · exact pairwise_time_congr
          (fun x hx => (ht x (List.mem_append.mpr (Or.inr hx))).symm) h.kSorted
    · -- repeated access: push the timestamp, maybe migrate or re-sort
      simp only [LRUK.recordAccess, if_pos hguard, hlook, Option.getD_some] at hstep
      have hne0 : n0.hist ≠ [] := h.histNe f n0 hlook
      have hfacts := hist_facts_upsert f (LRUNode.access s.k s.counter n0) h
        (access_hist_ne s.k s.counter n0)
        (by
          intro x hx
          rcases access_hist_subset hx with hx0 | hx0
          · exact Or.inl ⟨n0, hlook, hx0⟩
          · exact Or.inr hx0)
      by_cases hcond : (LRUNode.access s.k s.counter n0).evi = true ∧
          s.k ≤ (LRUNode.access s.k s.counter n0).accessCount
      · -- the node moves to (or re-sorts inside) the k-list
        rw [if_pos hcond] at hstep
        rw [Option.some.injEq] at hstep
        subst hstep
        have hevi0 : n0.evi = true := by
          have := hcond.1
          rw [access_evi] at this
          exact this
        have hcnt : s.k ≤ (LRUNode.access s.k s.counter n0).hist.length := hcond.2
        have hTne : ∀ (a b c d : Nat) (l1 l2 : List Int) (g : Int), g ≠ f →
            LRUK.timeOf ⟨a, b, c, d, aupsert f (LRUNode.access s.k s.counter n0) s.nodes,
              l1, l2⟩ g = s.timeOf g := by
          intro a b c d l1 l2 g hg
          simp only [LRUK.timeOf]
          rw [alookup_aupsert_ne hg]
        have hTf : ∀ (a b c d : Nat) (l1 l2 : List Int),
            LRUK.timeOf ⟨a, b, c, d, aupsert f (LRUNode.access s.k s.counter n0) s.nodes,
              l1, l2⟩ f = (LRUNode.access s.k s.counter n0).accessTime := by
          intro a b c d l1 l2
          simp only [LRUK.timeOf]
          rw [alookup_aupsert_self]
          rfl
        refine ⟨aupsert_nodup h.mapNodup, h.klessNodup.erase f,
                insertByTime_nodup h.kNodup.not_mem_erase (h.kNodup.erase f), ?_, ?_, ?_,
                ?_, ?_, ?_, hfacts.1, hfacts.2.1, hfacts.2.2⟩
        · intro g hg hk
          have hgf : g ≠ f := (h.klessNodup.mem_erase_iff.mp hg).1
          rcases mem_insertByTime.mp hk with hh | hk1
          · exact hgf hh
          · exact h.disj g (List.mem_of_mem_erase hg) (List.mem_of_mem_erase hk1)
        · intro g
          by_cases hg : g = f
          · subst hg
            constructor
            · intro hm
              exact absurd hm h.klessNodup.not_mem_erase
            · rintro ⟨n', hn', _, hc'⟩
              rw [alookup_aupsert_self] at hn'
              cases hn'
              have hc2 : (LRUNode.access s.k s.counter n0).hist.length < s.k := hc'
              omega
          · rw [List.mem_erase_of_ne hg, h.klessMem g]
            exact (exists_lookup_upsert_ne hg _ s.nodes _).symm
        · intro g
          by_cases hg : g = f
          · subst hg
            constructor
            · intro _
              exact ⟨LRUNode.access s.k s.counter n0, alookup_aupsert_self _ _ s.nodes,
                     hcond.1, hcond.2⟩
            · intro _
              exact mem_insertByTime.mpr (Or.inl rfl)
          · rw [mem_insertByTime, List.mem_erase_of_ne hg, h.kMem g]
            rw [exists_lookup_upsert_ne hg _ s.nodes _]
            constructor
            · rintro (hh | hh)
              · exact absurd hh hg
              · exact hh
            · intro hh
              exact Or.inr hh
        · refine pairwise_time_congr ?_
            (h.klessSorted.sublist (List.erase_sublist f s.klessList))
          intro x hx
          exact (hTne _ _ _ _ _ _ x (h.klessNodup.mem_erase_iff.mp hx).1).symm
        · refine insertByTime_sorted ?_ ?_
          · refine pairwise_time_congr ?_
              (h.kSorted.sublist (List.erase_sublist f s.kList))
            intro x hx
            exact (hTne _ _ _ _ _ _ x (h.kNodup.mem_erase_iff.mp hx).1).symm
          · intro x hx
            have hxf : x ≠ f := (h.kNodup.mem_erase_iff.mp hx).1
            have hxk : x ∈ s.kList := List.mem_of_mem_erase hx
            rcases (h.kMem x).mp hxk with ⟨nx, hnx, _, _⟩
            rw [hTne _ _ _ _ _ _ x hxf, hTf, timeOf_some hnx]
            intro heq
            have hmem1 : nx.accessTime ∈ nx.hist :=
              headD_mem_of_ne (h.histNe x nx hnx) 0
            have hmem2 : (LRUNode.access s.k s.counter n0).accessTime ∈
                (LRUNode.access s.k s.counter n0).hist :=
              headD_mem_of_ne (access_hist_ne s.k s.counter n0) 0
            rcases access_hist_subset hmem2 with hin | hct
            · exact h.histDisj x f nx n0 hxf hnx hlook nx.accessTime hmem1 (heq ▸ hin)
            · have := h.histLt x nx hnx nx.accessTime hmem1
              rw [heq, hct] at this
              omega
        · rcases rinv_mem_split h hlook hevi0 with ⟨hm, hnm, _⟩ | ⟨hm, hnm, _⟩
          · have h1 : (s.klessList.erase f).length = s.klessList.length - 1 :=
              List.length_erase_of_mem hm
            have h2 : s.kList.erase f = s.kList := List.erase_of_not_mem hnm
            have h3 : 0 < s.klessList.length := List.length_pos_of_mem hm
            have h4 := h.sizeEq
            simp only [h1, h2, length_insertByTime]
            omega
          · have h1 : (s.kList.erase f).length = s.kList.length - 1 :=
              List.length_erase_of_mem hm
            have h2 : s.klessList.erase f = s.klessList := List.erase_of_not_mem hnm
            have h3 : 0 < s.kList.length := List.length_pos_of_mem hm
            have h4 := h.sizeEq
            simp only [h1, h2, length_insertByTime]
            omega
      · -- no migration: the lists are untouched
        rw [if_neg hcond] at hstep
        rw [Option.some.injEq] at hstep
        subst hstep
        have hnotk : f ∉ s.kList := by
          intro hm
          rcases (h.kMem f).mp hm with ⟨n', hn', he', hc'⟩
          rw [hlook] at hn'
          cases hn'
          refine hcond ⟨by rw [access_evi]; exact he', ?_⟩
          have := @access_length_of_ge s.k s.counter n0 hc' hne0
          simp only [LRUNode.accessCount]
          omega
        have hT : ∀ g ∈ s.klessList ++ s.kList,
            LRUK.timeOf { s with counter := s.counter + 1
                                 nodes := aupsert f (LRUNode.access s.k s.counter n0)
                                   s.nodes } g = s.timeOf g := by
          intro g hg
          by_cases hgf : g = f
          · subst hgf
            have hgless : g ∈ s.klessList := by
              rcases List.mem_append.mp hg with hg1 | hg1
              · exact hg1
              · exact absurd hg1 hnotk
            rcases (h.klessMem g).mp hgless with ⟨n', hn', he', hc'⟩
            rw [hlook] at hn'
            cases hn'
            simp only [LRUK.timeOf]
            rw [alookup_aupsert_self, hlook]
            show ((some (LRUNode.access s.k s.counter n0)).map LRUNode.accessTime).getD 0 =
              ((some n0).map LRUNode.accessTime).getD 0
            show (LRUNode.access s.k s.counter n0).accessTime = n0.accessTime
            exact accessTime_access_of_lt hc' hne0
          · simp only [LRUK.timeOf]
            rw [alookup_aupsert_ne hgf]
        refine ⟨aupsert_nodup h.mapNodup, h.klessNodup, h.kNodup, h.disj, ?_, ?_, ?_, ?_,
                h.sizeEq, hfacts.1, hfacts.2.1, hfacts.2.2⟩
        · intro g
          by_cases hg : g = f
          · subst hg
            rw [h.klessMem g]
            constructor
            · rintro ⟨n', hn', he', hc'⟩
              rw [hlook] at hn'
              cases hn'
              refine ⟨LRUNode.access s.k s.counter n0, alookup_aupsert_self g _ s.nodes,
                      by rw [access_evi]; exact he', ?_⟩
              by_contra hge
              push_neg at hge
              exact hcond ⟨by rw [access_evi]; exact he', hge⟩
            · rintro ⟨n', hn', he', hc'⟩
              rw [alookup_aupsert_self] at hn'
              cases hn'
              rw [access_evi] at he'
              refine ⟨n0, hlook, he', ?_⟩
              have hc2 : (LRUNode.access s.k s.counter n0).hist.length < s.k := hc'
              by_contra hge
              push_neg at hge
              have := @access_length_of_ge s.k s.counter n0 hge hne0
              omega
          · rw [h.klessMem g]
            exact (exists_lookup_upsert_ne hg _ s.nodes _).symm
        · intro g
          by_cases hg : g = f
          · subst hg
            constructor
            · intro hm
              exact absurd hm hnotk
            · rintro ⟨n', hn', he', hc'⟩
              rw [alookup_aupsert_self] at hn'
              cases hn'
              exact absurd ⟨he', hc'⟩ hcond
          · rw [h.kMem g]
            exact (exists_lookup_upsert_ne hg _ s.nodes _).symm
        · exact pairwise_time_congr
            (fun x hx => (hT x (List.mem_append.mpr (Or.inl hx))).symm) h.klessSorted
        · exact pairwise_time_congr
            (fun x hx => (hT x (List.mem_append.mpr (Or.inr hx))).symm) h.kSorted

/-! ### Replacer reachability and the LRU-K claims -/

theorem rinv_mkNew (numFrames k : Nat) : RInv (LRUK.mkNew numFrames k) := by
  refine ⟨?_, ?_, ?_, ?_, ?_, ?_, ?_, ?_, ?_, ?_, ?_, ?_⟩ <;>
    simp [LRUK.mkNew, alookup]

theorem rreach_rinv {s : LRUK} (h : RReach s) : RInv s := by
  induction h with
  | init numFrames k => exact rinv_mkNew numFrames k
  | record f _ hstep ih => exact rinv_recordAccess ih hstep
  | setEvi f b _ ih => exact rinv_setEvictable _ f b ih
  | remove f _ hstep ih => exact rinv_remove ih hstep
  | evict _ hstep ih => exact rinv_evict ih hstep

/-- C1: in every reachable replacer state, a successful Evict picks, among
the evictable frames with fewer than K recorded accesses, the one whose
earliest recorded access (`hist.headD 0`, the head of the ring buffer) is
smallest; when every evictable frame has at least K recorded accesses it
picks the one whose K-th most recent access (again the ring-buffer head) is
smallest.  Strictness of the inequality shows the victim is unique, so the
tie-breaking clause is vacuous: the global timestamp counter never hands out
the same instant twice. -/
theorem c1_evict_backward_kdistance {s s' : LRUK} {f : Int} (hreach : RReach s)
    (hev : s.evict = some (some f, s')) :
    ∃ nf, alookup f s.nodes = some nf ∧ nf.evi = true ∧
      ((∃ g ng, alookup g s.nodes = some ng ∧ ng.evi = true ∧ ng.hist.length < s.k) →
        nf.hist.length < s.k ∧
        ∀ g ng, alookup g s.nodes = some ng → ng.evi = true → ng.hist.length < s.k →
          g ≠ f → nf.hist.headD 0 < ng.hist.headD 0) ∧
      ((∀ g ng, alookup g s.nodes = some ng → ng.evi = true → s.k ≤ ng.hist.length) →
        s.k ≤ nf.hist.length ∧
        ∀ g ng, alookup g s.nodes = some ng → ng.evi = true → g ≠ f →
          nf.hist.headD 0 < ng.hist.headD 0) := by
  have hinv := rreach_rinv hreach
  by_cases hc : 0 < s.currSize
  · rcases hkl : s.klessList with _ | ⟨f0, rest⟩
    · rcases hk : s.kList with _ | ⟨f0, rest⟩
      · simp only [LRUK.evict, if_pos hc, hkl, hk] at hev
        cases hev
      · simp only [LRUK.evict, if_pos hc, hkl, hk, Option.some.injEq, Prod.mk.injEq] at hev
        obtain ⟨hf, _⟩ := hev
        subst hf
        have hmem : f0 ∈ s.kList := by
          rw [hk]
          exact List.mem_cons_self f0 rest
        rcases (hinv.kMem f0).mp hmem with ⟨nf, hlookf, hevif, hcf⟩
        refine ⟨nf, hlookf, hevif, ?_, ?_⟩
        · rintro ⟨g, ng, hng, hevig, hcg⟩
          have : g ∈ s.klessList := (hinv.klessMem g).mpr ⟨ng, hng, hevig, hcg⟩
          rw [hkl] at this
          cases this
        · intro hall
          refine ⟨hcf, ?_⟩
          intro g ng hng hevig hgf
          have hgk : g ∈ s.kList := (hinv.kMem g).mpr ⟨ng, hng, hevig, hall g ng hng hevig⟩
          rw [hk] at hgk
          have hgrest : g ∈ rest := by
            rcases List.mem_cons.mp hgk with hh | hh
            · exact absurd hh hgf
            · exact hh
          have hp := hinv.kSorted
          rw [hk] at hp
          have hlt := (List.pairwise_cons.mp hp).1 g hgrest
          rw [timeOf_some hlookf, timeOf_some hng] at hlt
          exact hlt
    · simp only [LRUK.evict, if_pos hc, hkl, Option.some.injEq, Prod.mk.injEq] at hev
      obtain ⟨hf, _⟩ := hev
      subst hf
      have hmem : f0 ∈ s.klessList := by
        rw [hkl]
        exact List.mem_cons_self f0 rest
      rcases (hinv.klessMem f0).mp hmem with ⟨nf, hlookf, hevif, hcf⟩
      refine ⟨nf, hlookf, hevif, ?_, ?_⟩
      · intro _
        refine ⟨hcf, ?_⟩
        intro g ng hng hevig hcg hgf
        have hgl : g ∈ s.klessList := (hinv.klessMem g).mpr ⟨ng, hng, hevig, hcg⟩
        rw [hkl] at hgl
        have hgrest : g ∈ rest := by
          rcases List.mem_cons.mp hgl with hh | hh
          · exact absurd hh hgf
          · exact hh
        have hp := hinv.klessSorted
        rw [hkl] at hp
        have hlt := (List.pairwise_cons.mp hp).1 g hgrest
        rw [timeOf_some hlookf, timeOf_some hng] at hlt
        exact hlt
      · intro hall
        exact absurd hcf (by have := hall f0 nf hlookf hevif; omega)
  · simp only [LRUK.evict, if_neg hc, Option.some.injEq, Prod.mk.injEq] at hev
    cases hev.1

/-- C1 witness: three frames accessed once each at times 0, 1 and 2 and all
made evictable; Evict must return frame 1 as the unique minimiser among the
fewer-than-K frames. -/
theorem c1_evict_backward_kdistance_witness :
    ∃ nf, alookup 1 c1State.nodes = some nf ∧ nf.evi = true ∧
      ((∃ g ng, alookup g c1State.nodes = some ng ∧ ng.evi = true ∧
          ng.hist.length < c1State.k) →
        nf.hist.length < c1State.k ∧
        ∀ g ng, alookup g c1State.nodes = some ng → ng.evi = true →
          ng.hist.length < c1State.k → g ≠ 1 → nf.hist.headD 0 < ng.hist.headD 0) ∧
      ((∀ g ng, alookup g c1State.nodes = some ng → ng.evi = true →
          c1State.k ≤ ng.hist.length) →
        c1State.k ≤ nf.hist.length ∧
        ∀ g ng, alookup g c1State.nodes = some ng → ng.evi = true → g ≠ 1 →
          nf.hist.headD 0 < ng.hist.headD 0) := by
  have h0 : RReach (LRUK.mkNew 3 2) := RReach.init 3 2
  have h1 : RReach (⟨3, 2, 1, 0, [(1, ⟨1, [0], false⟩)], [], []⟩ : LRUK) :=
    RReach.record 1 h0 (by decide)
  have h2 : RReach (⟨3, 2, 2, 0, [(1, ⟨1, [0], false⟩), (2, ⟨2, [1], false⟩)], [], []⟩ :
      LRUK) := RReach.record 2 h1 (by decide)
  have h3 : RReach (⟨3, 2, 3, 0,
      [(1, ⟨1, [0], false⟩), (2, ⟨2, [1], false⟩), (3, ⟨3, [2], false⟩)], [], []⟩ : LRUK) :=
    RReach.record 3 h2 (by decide)
  have h6 : RReach c1State := by
    have h4 := RReach.setEvi 1 true h3
    have h5 := RReach.setEvi 2 true h4
    have h6 := RReach.setEvi 3 true h5
    have heq : ((((⟨3, 2, 3, 0,
        [(1, ⟨1, [0], false⟩), (2, ⟨2, [1], false⟩), (3, ⟨3, [2], false⟩)], [], []⟩ :
        LRUK).setEvictable 1 true).setEvictable 2 true).setEvictable 3 true) = c1State := by
      decide
    rw [heq] at h6
    exact h6
  exact @c1_evict_backward_kdistance c1State
    ⟨3, 2, 3, 2, [(2, ⟨2, [1], true⟩), (3, ⟨3, [2], true⟩)], [2, 3], []⟩ 1 h6 (by decide)

/-- C9: the assertion guarding RecordAccess is `(size_t)frame_id <=
replacer_size_`, so the frame id equal to the capacity — which the
assertion's own message says should be smaller — slips through: the
recorded call succeeds instead of dying. -/
theorem c9_assert_passes_at_capacity :
    ((LRUK.mkNew 4 2).recordAccess 4).isSome = true := by decide

/-- C10: SetEvictable on a frame the replacer does not know simply returns:
the state — current size, both lists and the map — is unchanged and no
assertion fires. -/
theorem c10_setEvictable_unknown_noop (s : LRUK) (f : Int) (b : Bool)
    (h : alookup f s.nodes = none) : s.setEvictable f b = s := by
  unfold LRUK.setEvictable
  rw [h]

/-- C10 witness: an empty replacer knows no frame 5, and SetEvictable(5,
true) leaves it untouched. -/
theorem c10_setEvictable_unknown_noop_witness :
    alookup 5 (LRUK.mkNew 3 2).nodes = none ∧
      (LRUK.mkNew 3 2).setEvictable 5 true = LRUK.mkNew 3 2 :=
  ⟨rfl, c10_setEvictable_unknown_noop (LRUK.mkNew 3 2) 5 true rfl⟩

/-! ### Extendible hash table lemmas and claims -/

theorem list_take_set (l : List Nat) (i n a : Nat) (h : n ≤ i) :
    (l.set i a).take n = l.take n := by
  apply List.ext_getElem
  · simp
  · intro j h1 h2
    have hj : j < n := by
      rw [List.length_take] at h2
      omega
    have hjl : j < (l.set i a).length := by
      rw [List.length_take, List.length_set] at h1
      rw [List.length_set]
      omega
    simp only [List.getElem_take]
    exact List.getElem_set_ne (show i ≠ j by omega) hjl

theorem list_take_succ_set (l : List Nat) (m a : Nat) (hm : m < l.length) :
    (l.set m a).take (m + 1) = l.take m ++ [a] := by
  rw [List.take_succ, list_take_set l m m a (le_refl m)]
  congr 1
  rw [List.getElem?_set_self]
  · rfl
  · exact hm

/-- The ReserveBucket copy loop, run from position `i` for the remaining
`ori - i` iterations over a vector of length `2 * ori`, keeps the first
`ori + i` entries and appends the entries `i, ..., ori - 1` of the first
half after them. -/
theorem reserveLoop_eq (ori : Nat) :
    ∀ (fuel i : Nat) (d : List Nat), d.length = 2 * ori → i + fuel = ori →
      reserveLoop ori d i fuel = d.take (ori + i) ++ (d.take ori).drop i := by
  intro fuel
  induction fuel with
  | zero =>
    intro i d hlen hcnt
    have hio : i = ori := by omega
    subst hio
    simp only [reserveLoop]
    rw [List.take_of_length_le (by omega)]
    rw [List.drop_eq_nil_of_le (by rw [List.length_take]; omega)]
    rw [List.append_nil]
  | succ fuel ih =>
    intro i d hlen hcnt
    have hi : i < ori := by omega
    simp only [reserveLoop]
    rw [ih (i + 1) (d.set (i + ori) (d.getD i 0)) (by rw [List.length_set]; exact hlen)
      (by omega)]
    have e1 : (d.set (i + ori) (d.getD i 0)).take ori = d.take ori :=
      list_take_set d (i + ori) ori _ (by omega)
    have hlt : i + ori < d.length := by omega
    have e2 : (d.set (i + ori) (d.getD i 0)).take (ori + (i + 1)) =
        d.take (ori + i) ++ [d.getD i 0] := by
      have harith : ori + (i + 1) = (i + ori) + 1 := by omega
      rw [harith, list_take_succ_set d (i + ori) (d.getD i 0) hlt]
      rw [Nat.add_comm i ori]
    rw [e1, e2, List.append_assoc]
    congr 1
    have hi2 : i < (d.take ori).length := by
      rw [List.length_take]
      omega
    rw [List.drop_eq_getElem_cons hi2]
    simp only [List.singleton_append]
    congr 1
    rw [List.getElem_take]
    exact List.getD_eq_getElem d 0 (show i < d.length by omega)

/-- With the directory at its invariant size `2 ^ global_depth`,
ReserveBucket doubles it in place: every old slot `i` reappears at
`i + old_size` and the global depth grows by one. -/
theorem reserveBucket_dir (t : EHT) (h : t.dir.length = 2 ^ t.globalDepth) :
    (t.reserveBucket).dir = t.dir ++ t.dir ∧
      (t.reserveBucket).globalDepth = t.globalDepth + 1 := by
  refine ⟨?_, rfl⟩
  show reserveLoop t.dir.length
      (t.dir.take (2 ^ (t.globalDepth + 1)) ++
        List.replicate (2 ^ (t.globalDepth + 1) - t.dir.length) 0) 0 t.dir.length =
    t.dir ++ t.dir
  have h2 : 2 ^ (t.globalDepth + 1) = 2 * t.dir.length := by
    rw [h, pow_succ]
    ring
  have htake : t.dir.take (2 ^ (t.globalDepth + 1)) = t.dir :=
    List.take_of_length_le (by omega)
  have hrep : 2 ^ (t.globalDepth + 1) - t.dir.length = t.dir.length := by omega
  rw [htake, hrep]
  rw [reserveLoop_eq t.dir.length t.dir.length 0 _ (by simp; omega) (by omega)]
  rw [Nat.add_zero, List.drop_zero]
  have hfront : (t.dir ++ List.replicate t.dir.length 0).take t.dir.length = t.dir :=
    List.take_left t.dir _
  rw [hfront]

/-- C5: doubling the directory preserves the key-to-bucket mapping — after
ReserveBucket every key's directory slot holds the same bucket (the same
index into the bucket store) and Find returns the same value as before. -/
theorem c5_reserveBucket_preserves_find (hash : Nat → Nat) (t : EHT) (key : Nat)
    (hlen : t.dir.length = 2 ^ t.globalDepth) :
    (t.reserveBucket).dir.getD (indexOf hash (t.reserveBucket).globalDepth key) 0 =
      t.dir.getD (indexOf hash t.globalDepth key) 0 ∧
    EHT.find hash t.reserveBucket key = EHT.find hash t key := by
  obtain ⟨hdir, hg⟩ := reserveBucket_dir t hlen
  have hslot : (t.reserveBucket).dir.getD (indexOf hash (t.reserveBucket).globalDepth key) 0 =
      t.dir.getD (indexOf hash t.globalDepth key) 0 := by
    rw [hdir, hg]
    unfold indexOf
    have hpos : 0 < 2 ^ (t.globalDepth + 1) := by positivity
    have hj : hash key % 2 ^ (t.globalDepth + 1) < 2 * 2 ^ t.globalDepth := by
      have := Nat.mod_lt (hash key) hpos
      rw [pow_succ] at this
      omega
    have hmm : hash key % 2 ^ (t.globalDepth + 1) % 2 ^ t.globalDepth =
        hash key % 2 ^ t.globalDepth :=
      Nat.mod_mod_of_dvd (hash key) ⟨2, by rw [pow_succ]⟩
    by_cases hcase : hash key % 2 ^ (t.globalDepth + 1) < 2 ^ t.globalDepth
    · have heq : hash key % 2 ^ t.globalDepth = hash key % 2 ^ (t.globalDepth + 1) := by
        rw [← hmm, Nat.mod_eq_of_lt hcase]
      rw [← heq]
      rw [List.getD_append _ _ _ _ (by rw [hlen]; omega)]
    · have h2g : 2 ^ t.globalDepth ≤ hash key % 2 ^ (t.globalDepth + 1) := by omega
      rw [List.getD_append_right _ _ _ _ (by rw [hlen]; omega)]
      have hsub : hash key % 2 ^ (t.globalDepth + 1) - t.dir.length =
          hash key % 2 ^ t.globalDepth := by
        rw [hlen, ← hmm, Nat.mod_eq_sub_mod h2g, Nat.mod_eq_of_lt
          (show hash key % 2 ^ (t.globalDepth + 1) - 2 ^ t.globalDepth < 2 ^ t.globalDepth
            by omega)]
      rw [hsub]
  exact ⟨hslot, by unfold EHT.find; rw [hslot]; rfl⟩

/-- C5 witness: a fresh table with one directory slot; doubling must leave
every key looking at bucket 0 with an unchanged (empty) Find result. -/
theorem c5_reserveBucket_preserves_find_witness :
    ((EHT.mkNew 2).reserveBucket).dir.getD
        (indexOf id ((EHT.mkNew 2).reserveBucket).globalDepth 5) 0 =
      (EHT.mkNew 2).dir.getD (indexOf id (EHT.mkNew 2).globalDepth 5) 0 ∧
    EHT.find id (EHT.mkNew 2).reserveBucket 5 = EHT.find id (EHT.mkNew 2) 5 :=
  c5_reserveBucket_preserves_find id (EHT.mkNew 2) 5 rfl

theorem insertNoLock_buckets_length (hash : Nat → Nat) (t : EHT) (key val : Nat) :
    (t.insertNoLock hash key val).buckets.length = t.buckets.length := by
  simp [EHT.insertNoLock]

theorem redistribute_buckets_length (hash : Nat → Nat) (oldIdx : Nat) (t : EHT) :
    (t.redistribute hash oldIdx).buckets.length = t.buckets.length := by
  have hfold : ∀ (l : List (Nat × Nat)) (z : EHT),
      (l.foldl (fun acc kv => acc.insertNoLock hash kv.1 kv.2) z).buckets.length =
        z.buckets.length := by
    intro l
    induction l with
    | nil => intro z; rfl
    | cons a l ih =>
      intro z
      rw [List.foldl_cons, ih]
      exact insertNoLock_buckets_length hash z a.1 a.2
  unfold EHT.redistribute
  rw [hfold]
  simp

theorem increaseLocalDepth_buckets_length (hash : Nat → Nat)
    (index depth gdepth oldIdx : Nat) (t : EHT) :
    (t.increaseLocalDepth hash index depth gdepth oldIdx).buckets.length =
      t.buckets.length + 1 := by
  unfold EHT.increaseLocalDepth
  rw [redistribute_buckets_length]
  simp

/-- A split step creates exactly one new bucket. -/
theorem splitStep_buckets_length (hash : Nat → Nat) (t : EHT) (key : Nat) :
    (t.splitStep hash key).buckets.length = t.buckets.length + 1 := by
  unfold EHT.splitStep
  rw [increaseLocalDepth_buckets_length]
  by_cases hd : (t.bucketAt (t.dir.getD (indexOf hash t.globalDepth key) 0)).depth =
      t.globalDepth
  · rw [if_pos hd]
    rfl
  · rw [if_neg hd]

/-- C4 counterexample: with bucket size 2 and the identity hash, key 0 is
present in its (full) bucket holding (0, 1) and (4, 2); Insert(0, 9)
nevertheless splits — it doubles the directory three times (global depth 0
to 3, four buckets) before finally updating the entry — refuting the claim
that an insert of an existing key never splits. -/
theorem c4_counterexample :
    bucketFind 0
        (c4State.bucketAt (c4State.dir.getD (indexOf id c4State.globalDepth 0) 0)).items =
      some 1 ∧
    (c4State.bucketAt (c4State.dir.getD (indexOf id c4State.globalDepth 0) 0)).isFull
      c4State.bucketSize = true ∧
    (EHT.insert id 10 c4State 0 9).map EHT.globalDepth = some 3 ∧
    (EHT.insert id 10 c4State 0 9).map (fun z => z.buckets.length) = some 4 ∧
    (EHT.insert id 10 c4State 0 9).bind (fun z => EHT.find id z 0) = some 9 := by
  refine ⟨rfl, rfl, ?_, ?_, ?_⟩ <;> rfl

/-- C4 amended: Insert updates an existing key in place without a split only
when the target bucket is not full; whenever the target bucket is full —
whether or not the key is already present — Insert performs a split
(Bucket::Insert rejects on fullness before looking for the key), creating a
new bucket, and only then retries. -/
theorem c4_insert_inplace_or_split (hash : Nat → Nat) (fuel : Nat) (t : EHT)
    (key val : Nat) :
    ((t.bucketAt (t.dir.getD (indexOf hash t.globalDepth key) 0)).isFull t.bucketSize =
        false →
      EHT.insert hash (fuel + 1) t key val =
        some { t with buckets := t.buckets.set (t.dir.getD (indexOf hash t.globalDepth key) 0) ((t.bucketAt (t.dir.getD (indexOf hash t.globalDepth key) 0)).insert t.bucketSize key val).2 } ∧
      (EHT.insert hash (fuel + 1) t key val).map EHT.globalDepth = some t.globalDepth ∧
      (EHT.insert hash (fuel + 1) t key val).map (fun z => z.buckets.length) =
        some t.buckets.length ∧
      (EHT.insert hash (fuel + 1) t key val).map EHT.dir = some t.dir) ∧
    ((t.bucketAt (t.dir.getD (indexOf hash t.globalDepth key) 0)).isFull t.bucketSize =
        true →
      EHT.insert hash (fuel + 1) t key val =
        EHT.insert hash fuel (t.splitStep hash key) key val ∧
      (t.splitStep hash key).buckets.length = t.buckets.length + 1) := by
  constructor
  · intro hfull
    have hstep : EHT.insert hash (fuel + 1) t key val =
        some { t with buckets := t.buckets.set (t.dir.getD (indexOf hash t.globalDepth key) 0) ((t.bucketAt (t.dir.getD (indexOf hash t.globalDepth key) 0)).insert t.bucketSize key val).2 } := by
      simp only [EHT.insert]
      rw [if_neg (by rw [hfull]; simp)]
    refine ⟨hstep, ?_, ?_, ?_⟩ <;> rw [hstep] <;> simp
  · intro hfull
    refine ⟨?_, splitStep_buckets_length hash t key⟩
    simp only [EHT.insert]
    rw [if_pos (by rw [hfull])]

/-- C4 amended witness: inserting key 0 into a fresh (empty, hence
non-full) table updates in place — no doubling, no new bucket. -/
theorem c4_insert_inplace_or_split_witness :
    (EHT.insert id 1 (EHT.mkNew 2) 0 7).map EHT.globalDepth =
      some (EHT.mkNew 2).globalDepth :=
  ((c4_insert_inplace_or_split id 0 (EHT.mkNew 2) 0 7).1 rfl).2.1

/-! ### Abstract effect of the replacer operations, as the buffer pool sees
them: how each call moves the node map, holding the other fields fixed. -/

theorem recordAccess_some {s : LRUK} {f : Int} (h0 : 0 ≤ f) (h1 : f.toNat ≤ s.replSize) :
    ∃ s1, s.recordAccess f = some s1 := by
  simp only [LRUK.recordAccess, if_pos (And.intro h0 h1)]
  split
  · exact ⟨_, rfl⟩
  · exact ⟨_, rfl⟩

theorem recordAccess_effect {s s1 : LRUK} {f : Int} (h : s.recordAccess f = some s1) :
    s1.replSize = s.replSize ∧ s1.currSize = s.currSize ∧
    (∀ g, g ≠ f → alookup g s1.nodes = alookup g s.nodes) ∧
    (∃ n, alookup f s1.nodes = some n ∧
      n.evi = ((alookup f s.nodes).map LRUNode.evi).getD false) := by
  by_cases hguard : 0 ≤ f ∧ f.toNat ≤ s.replSize
  · simp only [LRUK.recordAccess, if_pos hguard] at h
    split at h <;>
    · rw [Option.some.injEq] at h
      subst h
      refine ⟨rfl, rfl, fun g hg => alookup_aupsert_ne hg _ s.nodes, ?_⟩
      refine ⟨_, alookup_aupsert_self f _ s.nodes, ?_⟩
      rw [access_evi]
      cases alookup f s.nodes <;> rfl
  · simp only [LRUK.recordAccess, if_neg hguard] at h
    cases h

theorem setEvictable_not_found {s : LRUK} {f : Int} (b : Bool)
    (h : alookup f s.nodes = none) : s.setEvictable f b = s := by
  unfold LRUK.setEvictable
  rw [h]

theorem setEvictable_effect_some {s : LRUK} {f : Int} {n : LRUNode} (b : Bool)
    (h : alookup f s.nodes = some n) :
    (s.setEvictable f b).replSize = s.replSize ∧
    alookup f (s.setEvictable f b).nodes = some { n with evi := b } ∧
    (∀ g, g ≠ f → alookup g (s.setEvictable f b).nodes = alookup g s.nodes) := by
  simp only [LRUK.setEvictable, h]
  by_cases hb1 : n.evi = true ∧ b = false
  · rw [if_pos hb1]
    exact ⟨rfl, alookup_aupsert_self f _ s.nodes, fun g hg => alookup_aupsert_ne hg _ s.nodes⟩
  · rw [if_neg hb1]
    by_cases hb2 : n.evi = false ∧ b = true
    · rw [if_pos hb2]
      unfold LRUK.addNodeToList
      split
      · exact ⟨rfl, alookup_aupsert_self f _ s.nodes,
          fun g hg => alookup_aupsert_ne hg _ s.nodes⟩
      · exact ⟨rfl, alookup_aupsert_self f _ s.nodes,
          fun g hg => alookup_aupsert_ne hg _ s.nodes⟩
    · rw [if_neg hb2]
      exact ⟨rfl, alookup_aupsert_self f _ s.nodes, fun g hg => alookup_aupsert_ne hg _ s.nodes⟩

theorem remove_not_found {s : LRUK} {f : Int} (h : alookup f s.nodes = none) :
    s.remove f = some s := by
  unfold LRUK.remove
  rw [h]

theorem remove_effect {s : LRUK} {f : Int} {n : LRUNode} (hinv : RInv s)
    (h : alookup f s.nodes = some n) (he : n.evi = true) :
    ∃ s1, s.remove f = some s1 ∧ s1.replSize = s.replSize ∧
      alookup f s1.nodes = none ∧
      (∀ g, g ≠ f → alookup g s1.nodes = alookup g s.nodes) := by
  have hstep : s.remove f = some { s with klessList := s.klessList.erase f
                                          kList := s.kList.erase f
                                          currSize := s.currSize - 1
                                          nodes := aerase f s.nodes } := by
    simp only [LRUK.remove, h]
    rw [if_pos he]
  exact ⟨_, hstep, rfl, alookup_aerase_self hinv.mapNodup,
    fun g hg => alookup_aerase_ne hg s.nodes⟩

theorem evict_none_char {s s1 : LRUK} (h : s.evict = some (none, s1)) :
    s1 = s ∧ s.currSize = 0 := by
  by_cases hc : 0 < s.currSize
  · rcases hkl : s.klessList with _ | ⟨f, rest⟩
    · rcases hk : s.kList with _ | ⟨f, rest⟩
      · simp only [LRUK.evict, if_pos hc, hkl, hk] at h
        cases h
      · simp only [LRUK.evict, if_pos hc, hkl, hk, Option.some.injEq, Prod.mk.injEq] at h
        cases h.1
    · simp only [LRUK.evict, if_pos hc, hkl, Option.some.injEq, Prod.mk.injEq] at h
      cases h.1
  · simp only [LRUK.evict, if_neg hc, Option.some.injEq, Prod.mk.injEq] at h
    exact ⟨h.2.symm, by omega⟩

theorem evict_some_char {s s1 : LRUK} {f : Int} (hinv : RInv s)
    (h : s.evict = some (some f, s1)) :
    ∃ n, alookup f s.nodes = some n ∧ n.evi = true ∧
      s1.replSize = s.replSize ∧ s1.currSize = s.currSize - 1 ∧
      alookup f s1.nodes = none ∧
      (∀ g, g ≠ f → alookup g s1.nodes = alookup g s.nodes) := by
  by_cases hc : 0 < s.currSize
  · rcases hkl : s.klessList with _ | ⟨f0, rest⟩
    · rcases hk : s.kList with _ | ⟨f0, rest⟩
      · simp only [LRUK.evict, if_pos hc, hkl, hk] at h
        cases h
      · simp only [LRUK.evict, if_pos hc, hkl, hk, Option.some.injEq, Prod.mk.injEq] at h
        obtain ⟨hf, hs1⟩ := h
        subst hf
        subst hs1
        have hmem : f0 ∈ s.kList := by
          rw [hk]
          exact List.mem_cons_self f0 rest
        rcases (hinv.kMem f0).mp hmem with ⟨n, hn, he, _⟩
        exact ⟨n, hn, he, rfl, rfl, alookup_aerase_self hinv.mapNodup,
          fun g hg => alookup_aerase_ne hg s.nodes⟩
    · simp only [LRUK.evict, if_pos hc, hkl, Option.some.injEq, Prod.mk.injEq] at h
      obtain ⟨hf, hs1⟩ := h
      subst hf
      subst hs1
      have hmem : f0 ∈ s.klessList := by
        rw [hkl]
        exact List.mem_cons_self f0 rest
      rcases (hinv.klessMem f0).mp hmem with ⟨n, hn, he, _⟩
      exact ⟨n, hn, he, rfl, rfl, alookup_aerase_self hinv.mapNodup,
        fun g hg => alookup_aerase_ne hg s.nodes⟩
  · simp only [LRUK.evict, if_neg hc, Option.some.injEq, Prod.mk.injEq] at h
    cases h.1

theorem evict_zero {s : LRUK} (hc : s.currSize = 0) : s.evict = some (none, s) := by
  simp [LRUK.evict, hc]

theorem evict_pos_some {s : LRUK} (hinv : RInv s) (hc : 0 < s.currSize) :
    ∃ f s1, s.evict = some (some f, s1) := by
  rcases hkl : s.klessList with _ | ⟨f0, rest⟩
  · rcases hk : s.kList with _ | ⟨f0, rest⟩
    · exfalso
      have := hinv.sizeEq
      rw [hkl, hk] at this
      simp at this
      omega
    · refine ⟨f0,
        { s with
          kList := rest
          nodes := aerase f0 s.nodes
          currSize := s.currSize - 1 }, ?_⟩
      simp only [LRUK.evict, if_pos hc, hkl, hk]
  · refine ⟨f0,
      { s with
        klessList := rest
        nodes := aerase f0 s.nodes
        currSize := s.currSize - 1 }, ?_⟩
    simp only [LRUK.evict, if_pos hc, hkl]

/-! ### Frame-array lemmas -/

theorem frameAt_bounds {l : List Frame} {fr : Int} {pg : Frame}
    (h : frameAt l fr = some pg) : 0 ≤ fr ∧ fr.toNat < l.length := by
  unfold frameAt at h
  by_cases hneg : fr < 0
  · rw [if_pos hneg] at h
    cases h
  · rw [if_neg hneg] at h
    have := List.getElem?_eq_some.mp h
    exact ⟨by omega, this.1⟩

theorem frameAt_set_self {l : List Frame} {fr : Int} (a : Frame)
    (h0 : 0 ≤ fr) (h1 : fr.toNat < l.length) :
    frameAt (l.set fr.toNat a) fr = some a := by
  unfold frameAt
  rw [if_neg (by omega)]
  simp [List.getElem?_set_self, h1]

theorem frameAt_set_ne {l : List Frame} {fr g : Int} (a : Frame)
    (h0 : 0 ≤ fr) (hne : g ≠ fr) :
    frameAt (l.set fr.toNat a) g = frameAt l g := by
  unfold frameAt
  by_cases hneg : g < 0
  · rw [if_pos hneg, if_pos hneg]
  · rw [if_neg hneg, if_neg hneg]
    exact List.getElem?_set_ne (by omega)

theorem frameAt_replicate {n : Nat} {a : Frame} {fr : Int} {pg : Frame}
    (h : frameAt (List.replicate n a) fr = some pg) : pg = a := by
  unfold frameAt at h
  by_cases hneg : fr < 0
  · rw [if_pos hneg] at h
    cases h
  · rw [if_neg hneg, List.getElem?_replicate] at h
    by_cases hlt : fr.toNat < n
    · rw [if_pos hlt] at h
      exact (Option.some.injEq _ _ ▸ h).symm
    · rw [if_neg hlt] at h
      cases h

/-! ### Buffer pool helper lemmas -/

theorem allocPageHelper_effect {s : BPM} {fr : Int} {pid : Int} {s' : BPM} {pg : Frame}
    (hpg : s.getPage fr = some pg)
    (h : s.allocPageHelper fr = some (pid, s')) :
    pid = s.nextPageId ∧
    ∃ r1, s.repl.recordAccess fr = some r1 ∧
      s' = { poolSize := s.poolSize
             frames := s.frames.set fr.toNat ⟨s.nextPageId, 1, false, 0⟩
             freeList := s.freeList
             table := aupsert s.nextPageId fr
               (if pg.pageId ≠ -1 then aupsert pg.pageId (-1) s.table else s.table)
             repl := r1.setEvictable fr false
             nextPageId := s.nextPageId + 1
             disk := if pg.isDirty then aupsert pg.pageId pg.data s.disk else s.disk } := by
  have hpg0 : BPM.getPage { s with nextPageId := s.nextPageId + 1 } fr = some pg := hpg
  simp only [BPM.allocPageHelper, hpg0] at h
  by_cases hd : pg.isDirty = true
  · by_cases hid : pg.pageId ≠ -1
    · rw [if_pos hd, if_pos hid] at h
      rcases hrec : s.repl.recordAccess fr with _ | r1 <;>
        simp only [BPM.setFrame, BPM.dwrite, hrec, Option.some.injEq, Prod.mk.injEq] at h
      · exact Option.noConfusion h
      · exact ⟨h.1.symm, r1, rfl, by rw [if_pos hid, if_pos hd]; exact h.2.symm⟩
    · rw [if_pos hd, if_neg hid] at h
      rcases hrec : s.repl.recordAccess fr with _ | r1 <;>
        simp only [BPM.setFrame, BPM.dwrite, hrec, Option.some.injEq, Prod.mk.injEq] at h
      · exact Option.noConfusion h
      · exact ⟨h.1.symm, r1, rfl, by rw [if_neg hid, if_pos hd]; exact h.2.symm⟩
  · by_cases hid : pg.pageId ≠ -1
    · rw [if_neg hd, if_pos hid] at h
      rcases hrec : s.repl.recordAccess fr with _ | r1 <;>
        simp only [BPM.setFrame, BPM.dwrite, hrec, Option.some.injEq, Prod.mk.injEq] at h
      · exact Option.noConfusion h
      · exact ⟨h.1.symm, r1, rfl, by rw [if_pos hid, if_neg hd]; exact h.2.symm⟩
    · rw [if_neg hd, if_neg hid] at h
      rcases hrec : s.repl.recordAccess fr with _ | r1 <;>
        simp only [BPM.setFrame, BPM.dwrite, hrec, Option.some.injEq, Prod.mk.injEq] at h
      · exact Option.noConfusion h
      · exact ⟨h.1.symm, r1, rfl, by rw [if_neg hid, if_neg hd]; exact h.2.symm⟩

/-- Core preservation lemma for the frame-rebinding path shared by NewPgImp
and the reload branch of FetchPgImp: a victim (or free) frame `fr` holding
`pg` is rebound to page `pid` with pin count 1, the old page is remapped to
the `-1` sentinel when it was valid, and the replacer knows `fr` as
non-evictable. -/
theorem rebind_inv {s : BPM} (hinv : BPMInv s) {fr pid : Int} {pg : Frame}
    (dat : Nat) (fl1 : List Int) (t1 : List (Int × Int)) (r2 : LRUK) (np : Int)
    (dk : List (Int × Nat))
    (hpg : s.getPage fr = some pg)
    (hfl_sub : ∀ g, g ∈ fl1 → g ∈ s.freeList)
    (hfl_nd : fl1.Nodup)
    (hfl_fr : fr ∉ fl1)
    (ht1 : (pg.pageId = -1 ∧ t1 = s.table) ∨
           (pg.pageId ≠ -1 ∧ t1 = aupsert pg.pageId (-1) s.table))
    (hpid0 : 0 ≤ pid)
    (hnp : s.nextPageId ≤ np)
    (hpidnp : pid < np)
    (hno : ∀ fr' pg', s.getPage fr' = some pg' → pg'.pageId ≠ pid)
    (hr2inv : RInv r2)
    (hr2size : r2.replSize = s.repl.replSize)
    (hr2fr : ∃ n, alookup fr r2.nodes = some n ∧ n.evi = false)
    (hr2g : ∀ g, g ≠ fr → alookup g r2.nodes = alookup g s.repl.nodes) :
    BPMInv { poolSize := s.poolSize
             frames := s.frames.set fr.toNat ⟨pid, 1, false, dat⟩
             freeList := fl1
             table := aupsert pid fr t1
             repl := r2
             nextPageId := np
             disk := dk } := by
  obtain ⟨hfr0, hfrlen⟩ := frameAt_bounds hpg
  refine ⟨?_, ?_, ?_, ?_, ?_, ?_, ?_, ?_, ?_, ?_, ?_, ?_, ?_, ?_, ?_⟩
  · show r2.replSize = s.poolSize
    rw [hr2size, hinv.replCap]
  · show (s.frames.set fr.toNat ⟨pid, 1, false, dat⟩).length = s.poolSize
    rw [List.length_set]
    exact hinv.framesLen
  · exact hfl_nd
  · show ∀ g ∈ fl1, frameAt (s.frames.set fr.toNat ⟨pid, 1, false, dat⟩) g = some Frame.reset
    intro g hg
    have hne : g ≠ fr := fun he => hfl_fr (he ▸ hg)
    rw [frameAt_set_ne _ hfr0 hne]
    exact hinv.freeFrame g (hfl_sub g hg)
  · show ∀ g ∈ fl1, alookup g r2.nodes = none
    intro g hg
    have hne : g ≠ fr := fun he => hfl_fr (he ▸ hg)
    rw [hr2g g hne]
    exact hinv.freeNoNode g (hfl_sub g hg)
  · show ∀ f n, alookup f r2.nodes = some n →
      ∃ pg1, frameAt (s.frames.set fr.toNat ⟨pid, 1, false, dat⟩) f = some pg1 ∧ pg1.pageId ≠ -1
    intro f n hn
    by_cases hf : f = fr
    · subst hf
      exact ⟨⟨pid, 1, false, dat⟩, frameAt_set_self _ hfr0 hfrlen, by show pid ≠ -1; omega⟩
    · rw [hr2g f hf] at hn
      obtain ⟨pg1, hpg1, hid1⟩ := hinv.nodeResident f n hn
      rw [frameAt_set_ne _ hfr0 hf]
      exact ⟨pg1, hpg1, hid1⟩
  · show ∀ g pg1, frameAt (s.frames.set fr.toNat ⟨pid, 1, false, dat⟩) g = some pg1 →
      pg1.pageId ≠ -1 → (alookup g r2.nodes).isSome = true
    intro g pg1 hpg1 hid1
    by_cases hg : g = fr
    · subst hg
      obtain ⟨n, hn, -⟩ := hr2fr
      rw [hn]
      rfl
    · rw [frameAt_set_ne _ hfr0 hg] at hpg1
      rw [hr2g g hg]
      exact hinv.residentNode g pg1 hpg1 hid1
  · show ∀ g pg1 n, frameAt (s.frames.set fr.toNat ⟨pid, 1, false, dat⟩) g = some pg1 →
      0 < pg1.pinCount → alookup g r2.nodes = some n → n.evi = false
    intro g pg1 n hpg1 hpin hn
    by_cases hg : g = fr
    · subst hg
      obtain ⟨n0, hn0, he0⟩ := hr2fr
      rw [hn0] at hn
      cases Option.some.inj hn
      exact he0
    · rw [frameAt_set_ne _ hfr0 hg] at hpg1
      rw [hr2g g hg] at hn
      exact hinv.pinnedNotEvi g pg1 n hpg1 hpin hn
  · show ∀ g pg1, frameAt (s.frames.set fr.toNat ⟨pid, 1, false, dat⟩) g = some pg1 →
      pg1.pageId ≠ -1 → pg1.pinCount = 0 → ∃ n, alookup g r2.nodes = some n ∧ n.evi = true
    intro g pg1 hpg1 hid1 hpin0
    by_cases hg : g = fr
    · subst hg
      rw [frameAt_set_self _ hfr0 hfrlen] at hpg1
      cases Option.some.inj hpg1
      exact absurd hpin0 (by show ¬(1 = 0); decide)
    · rw [frameAt_set_ne _ hfr0 hg] at hpg1
      rw [hr2g g hg]
      exact hinv.unpinnedEvi g pg1 hpg1 hid1 hpin0
  · show ∀ q v, alookup q (aupsert pid fr t1) = some v → 0 ≤ q ∧ q < np
    intro q v hqv
    by_cases hq : q = pid
    · exact ⟨hq ▸ hpid0, hq ▸ hpidnp⟩
    · rw [alookup_aupsert_ne hq] at hqv
      rcases ht1 with ⟨hid1, hteq⟩ | ⟨hid1, hteq⟩
      · rw [hteq] at hqv
        have hk := hinv.tableKey q v hqv
        omega
      · rw [hteq] at hqv
        by_cases hqq : q = pg.pageId
        · subst hqq
          have hl := hinv.residentTable fr pg hpg hid1
          have hk := hinv.tableKey pg.pageId fr hl
          omega
        · rw [alookup_aupsert_ne hqq] at hqv
          have hk := hinv.tableKey q v hqv
          omega
  · show ∀ q v, alookup q (aupsert pid fr t1) = some v → v = -1 ∨
      ∃ pg1, frameAt (s.frames.set fr.toNat ⟨pid, 1, false, dat⟩) v = some pg1 ∧ pg1.pageId = q
    intro q v hqv
    by_cases hq : q = pid
    · subst hq
      rw [alookup_aupsert_self] at hqv
      right
      refine ⟨⟨q, 1, false, dat⟩, ?_, rfl⟩
      rw [← Option.some.inj hqv]
      exact frameAt_set_self _ hfr0 hfrlen
    · rw [alookup_aupsert_ne hq] at hqv
      rcases ht1 with ⟨hid1, hteq⟩ | ⟨hid1, hteq⟩
      · rw [hteq] at hqv
        rcases hinv.tableVal q v hqv with hv | ⟨pg1, hpg1, hidq⟩
        · exact Or.inl hv
        · have hvfr : v ≠ fr := by
            intro he
            rw [he, hpg] at hpg1
            have hk := hinv.tableKey q v hqv
            have he2 := Option.some.inj hpg1
            rw [← he2] at hidq
            omega
          right
          rw [frameAt_set_ne _ hfr0 hvfr]
          exact ⟨pg1, hpg1, hidq⟩
      · rw [hteq] at hqv
        by_cases hqq : q = pg.pageId
        · subst hqq
          rw [alookup_aupsert_self] at hqv
          exact Or.inl (Option.some.inj hqv).symm
        · rw [alookup_aupsert_ne hqq] at hqv
          rcases hinv.tableVal q v hqv with hv | ⟨pg1, hpg1, hidq⟩
          · exact Or.inl hv
          · have hvfr : v ≠ fr := by
              intro he
              rw [he, hpg] at hpg1
              have he2 := Option.some.inj hpg1
              rw [← he2] at hidq
              exact hqq hidq.symm
            right
            rw [frameAt_set_ne _ hfr0 hvfr]
            exact ⟨pg1, hpg1, hidq⟩
  · show ∀ g pg1, frameAt (s.frames.set fr.toNat ⟨pid, 1, false, dat⟩) g = some pg1 →
      pg1.pageId ≠ -1 → alookup pg1.pageId (aupsert pid fr t1) = some g
    intro g pg1 hpg1 hid1
    by_cases hg : g = fr
    · subst hg
      rw [frameAt_set_self _ hfr0 hfrlen] at hpg1
      cases Option.some.inj hpg1
      exact alookup_aupsert_self _ _ _
    · rw [frameAt_set_ne _ hfr0 hg] at hpg1
      have hold := hinv.residentTable g pg1 hpg1 hid1
      have hne1 : pg1.pageId ≠ pid := hno g pg1 hpg1
      rw [alookup_aupsert_ne hne1]
      rcases ht1 with ⟨hid2, hteq⟩ | ⟨hid2, hteq⟩
      · rw [hteq]
        exact hold
      · rw [hteq]
        have hne2 : pg1.pageId ≠ pg.pageId := by
          intro he
          rw [he] at hold
          have h2 := hinv.residentTable fr pg hpg hid2
          rw [hold] at h2
          exact hg (Option.some.inj h2)
        rw [alookup_aupsert_ne hne2]
        exact hold
  · show ((aupsert pid fr t1).map Prod.fst).Nodup
    rcases ht1 with ⟨-, hteq⟩ | ⟨-, hteq⟩
    · subst hteq
      exact aupsert_nodup hinv.tableNodup
    · subst hteq
      exact aupsert_nodup (aupsert_nodup hinv.tableNodup)
  · show (0 : Int) ≤ np
    have := hinv.nextNonneg
    omega
  · exact hr2inv

/-- GetReplacementFrame, successful case: the frame handed out is resident in
the pool, unpinned, and no longer known to the replacer, while the frame
array, page table, page-id counter and disk are untouched and the free list
only shrinks. -/
theorem replacementFrame_facts {s : BPM} (hinv : BPMInv s) {fr : Int} {s1 : BPM}
    (h : s.getReplacementFrame = some (some fr, s1)) :
    ∃ pg, s.getPage fr = some pg ∧ pg.pinCount = 0 ∧
      s1.poolSize = s.poolSize ∧ s1.frames = s.frames ∧ s1.table = s.table ∧
      s1.nextPageId = s.nextPageId ∧ s1.disk = s.disk ∧
      RInv s1.repl ∧ s1.repl.replSize = s.repl.replSize ∧
      alookup fr s1.repl.nodes = none ∧
      (∀ g, g ≠ fr → alookup g s1.repl.nodes = alookup g s.repl.nodes) ∧
      s1.freeList.Nodup ∧ (∀ g, g ∈ s1.freeList → g ∈ s.freeList) ∧ fr ∉ s1.freeList := by
  rcases hfl : s.freeList with _ | ⟨f0, rest⟩
  · rcases hev : s.repl.evict with _ | ⟨_ | fr1, r1⟩
    · simp only [BPM.getReplacementFrame, hfl, hev] at h
      exact Option.noConfusion h
    · simp only [BPM.getReplacementFrame, hfl, hev, Option.some.injEq, Prod.mk.injEq] at h
      exact Option.noConfusion h.1
    · simp only [BPM.getReplacementFrame, hfl, hev, Option.some.injEq, Prod.mk.injEq] at h
      obtain ⟨hf1, hs1⟩ := h
      subst hf1
      obtain ⟨n, hn, hevi, hsize, hcurr, hfrnone, hgpres⟩ := evict_some_char hinv.rinv hev
      obtain ⟨pg, hpg, hid⟩ := hinv.nodeResident fr1 n hn
      have hpin : pg.pinCount = 0 := by
        by_cases hp : 0 < pg.pinCount
        · have := hinv.pinnedNotEvi fr1 pg n hpg hp hn
          rw [this] at hevi
          cases hevi
        · omega
      subst hs1
      refine ⟨pg, hpg, hpin, rfl, rfl, rfl, rfl, rfl, rinv_evict hinv.rinv hev, hsize,
        hfrnone, hgpres, ?_, ?_, ?_⟩
      · exact List.nodup_nil
      · intro g hg
        exact hg
      · exact List.not_mem_nil fr1
  · simp only [BPM.getReplacementFrame, hfl, Option.some.injEq, Prod.mk.injEq] at h
    obtain ⟨hf1, hs1⟩ := h
    subst hf1
    subst hs1
    have hmem : f0 ∈ s.freeList := by
      rw [hfl]
      exact List.mem_cons_self f0 rest
    have hnd : (f0 :: rest).Nodup := hfl ▸ hinv.freeNodup
    refine ⟨Frame.reset, hinv.freeFrame f0 hmem, rfl, rfl, rfl, rfl, rfl, rfl,
      hinv.rinv, rfl, hinv.freeNoNode f0 hmem, fun g hg => rfl, ?_, ?_, ?_⟩
    · exact (List.nodup_cons.mp hnd).2
    · intro g hg
      exact List.mem_cons_of_mem f0 hg
    · exact (List.nodup_cons.mp hnd).1

/-- GetReplacementFrame, failure case: the state is unchanged. -/
theorem getReplacementFrame_none {s s1 : BPM} (h : s.getReplacementFrame = some (none, s1)) :
    s1 = s := by
  rcases hfl : s.freeList with _ | ⟨f0, rest⟩
  · rcases hev : s.repl.evict with _ | ⟨_ | fr1, r1⟩
    · simp only [BPM.getReplacementFrame, hfl, hev] at h
      exact Option.noConfusion h
    · simp only [BPM.getReplacementFrame, hfl, hev, Option.some.injEq, Prod.mk.injEq] at h
      rw [← h.2, (evict_none_char hev).1, ← hfl]
    · simp only [BPM.getReplacementFrame, hfl, hev, Option.some.injEq, Prod.mk.injEq] at h
      exact Option.noConfusion h.1
  · simp only [BPM.getReplacementFrame, hfl, Option.some.injEq, Prod.mk.injEq] at h
    exact Option.noConfusion h.1

/-- NewPgImp preserves the pool invariant. -/
theorem newPage_inv {s s' : BPM} {r : Option (Int × Int)} (hinv : BPMInv s)
    (h : s.newPage = some (r, s')) : BPMInv s' := by
  rcases hgr : s.getReplacementFrame with _ | ⟨_ | fr, s1⟩
  · simp only [BPM.newPage, hgr] at h
    exact Option.noConfusion h
  · simp only [BPM.newPage, hgr, Option.some.injEq, Prod.mk.injEq] at h
    obtain ⟨-, hs1⟩ := h
    subst hs1
    rw [getReplacementFrame_none hgr]
    exact hinv
  · simp only [BPM.newPage, hgr] at h
    rcases halloc : s1.allocPageHelper fr with _ | ⟨pid, s2⟩
    · simp only [halloc] at h
      exact Option.noConfusion h
    · simp only [halloc, Option.some.injEq, Prod.mk.injEq] at h
      obtain ⟨-, hs2⟩ := h
      subst hs2
      obtain ⟨pg, hpg, hpin, hpool, hframes, htable, hnext, hdisk, hr1inv, hr1size, hr1fr,
        hr1g, hflnd, hflsub, hflfr⟩ := replacementFrame_facts hinv hgr
      have hpg1 : s1.getPage fr = some pg := by
        show frameAt s1.frames fr = some pg
        rw [hframes]
        exact hpg
      obtain ⟨hpid, r2, hrec, hs'⟩ := allocPageHelper_effect hpg1 halloc
      subst hs'
      obtain ⟨hra_size, hra_curr, hra_g, n2, hn2, hevi2⟩ := recordAccess_effect hrec
      obtain ⟨hse_size, hse_fr, hse_g⟩ := setEvictable_effect_some false hn2
      rw [hpool, hframes, htable, hnext]
      refine rebind_inv hinv 0 s1.freeList _ _ _ _ hpg hflsub hflnd hflfr ?_
        hinv.nextNonneg (by omega) (by omega) ?_ ?_ ?_ ?_ ?_
      · by_cases hid : pg.pageId = -1
        · exact Or.inl ⟨hid, by rw [if_neg (fun hc => hc hid)]⟩
        · exact Or.inr ⟨hid, by rw [if_pos hid]⟩
      · intro fr' pg' hp' he
        by_cases hid' : pg'.pageId = -1
        · rw [hid'] at he
          have := hinv.nextNonneg
          omega
        · have hl := hinv.residentTable fr' pg' hp' hid'
          have hk := hinv.tableKey _ _ hl
          omega
      · exact rinv_setEvictable r2 fr false (rinv_recordAccess hr1inv hrec)
      · rw [hse_size, hra_size, hr1size]
      · exact ⟨_, hse_fr, rfl⟩
      · intro g hg
        rw [hse_g g hg, hra_g g hg, hr1g g hg]

/-- Preservation lemma for the pin path of FetchPgImp: a resident page's pin
count is incremented and its frame is known to the replacer as
non-evictable. -/
theorem pin_inv {s : BPM} (hinv : BPMInv s) {fr : Int} {pg : Frame} {r2 : LRUK}
    (hpg : s.getPage fr = some pg) (hid : pg.pageId ≠ -1)
    (hr2inv : RInv r2) (hr2size : r2.replSize = s.repl.replSize)
    (hr2fr : ∃ n, alookup fr r2.nodes = some n ∧ n.evi = false)
    (hr2g : ∀ g, g ≠ fr → alookup g r2.nodes = alookup g s.repl.nodes) :
    BPMInv { poolSize := s.poolSize
             frames := s.frames.set fr.toNat { pg with pinCount := pg.pinCount + 1 }
             freeList := s.freeList
             table := s.table
             repl := r2
             nextPageId := s.nextPageId
             disk := s.disk } := by
  obtain ⟨hfr0, hfrlen⟩ := frameAt_bounds hpg
  have hfrnotfree : fr ∉ s.freeList := by
    intro hmem
    have hres := hinv.freeFrame fr hmem
    rw [hpg] at hres
    cases Option.some.inj hres
    exact hid rfl
  refine ⟨?_, ?_, ?_, ?_, ?_, ?_, ?_, ?_, ?_, ?_, ?_, ?_, ?_, ?_, ?_⟩
  · show r2.replSize = s.poolSize
    rw [hr2size, hinv.replCap]
  · show (s.frames.set fr.toNat { pg with pinCount := pg.pinCount + 1 }).length = s.poolSize
    rw [List.length_set]
    exact hinv.framesLen
  · exact hinv.freeNodup
  · show ∀ g ∈ s.freeList,
      frameAt (s.frames.set fr.toNat { pg with pinCount := pg.pinCount + 1 }) g = some Frame.reset
    intro g hg
    have hne : g ≠ fr := fun he => hfrnotfree (he ▸ hg)
    rw [frameAt_set_ne _ hfr0 hne]
    exact hinv.freeFrame g hg
  · show ∀ g ∈ s.freeList, alookup g r2.nodes = none
    intro g hg
    have hne : g ≠ fr := fun he => hfrnotfree (he ▸ hg)
    rw [hr2g g hne]
    exact hinv.freeNoNode g hg
  · show ∀ f n, alookup f r2.nodes = some n →
      ∃ pg1, frameAt (s.frames.set fr.toNat { pg with pinCount := pg.pinCount + 1 }) f = some pg1 ∧
        pg1.pageId ≠ -1
    intro f n hn
    by_cases hf : f = fr
    · subst hf
      exact ⟨{ pg with pinCount := pg.pinCount + 1 }, frameAt_set_self _ hfr0 hfrlen, hid⟩
    · rw [hr2g f hf] at hn
      obtain ⟨pg1, hpg1, hid1⟩ := hinv.nodeResident f n hn
      rw [frameAt_set_ne _ hfr0 hf]
      exact ⟨pg1, hpg1, hid1⟩
  · show ∀ g pg1, frameAt (s.frames.set fr.toNat { pg with pinCount := pg.pinCount + 1 }) g = some pg1 →
      pg1.pageId ≠ -1 → (alookup g r2.nodes).isSome = true
    intro g pg1 hpg1 hid1
    by_cases hg : g = fr
    · subst hg
      obtain ⟨n, hn, -⟩ := hr2fr
      rw [hn]
      rfl
    · rw [frameAt_set_ne _ hfr0 hg] at hpg1
      rw [hr2g g hg]
      exact hinv.residentNode g pg1 hpg1 hid1
  · show ∀ g pg1 n, frameAt (s.frames.set fr.toNat { pg with pinCount := pg.pinCount + 1 }) g = some pg1 →
      0 < pg1.pinCount → alookup g r2.nodes = some n → n.evi = false
    intro g pg1 n hpg1 hpin hn
    by_cases hg : g = fr
    · subst hg
      obtain ⟨n0, hn0, he0⟩ := hr2fr
      rw [hn0] at hn
      cases Option.some.inj hn
      exact he0
    · rw [frameAt_set_ne _ hfr0 hg] at hpg1
      rw [hr2g g hg] at hn
      exact hinv.pinnedNotEvi g pg1 n hpg1 hpin hn
  · show ∀ g pg1, frameAt (s.frames.set fr.toNat { pg with pinCount := pg.pinCount + 1 }) g = some pg1 →
      pg1.pageId ≠ -1 → pg1.pinCount = 0 → ∃ n, alookup g r2.nodes = some n ∧ n.evi = true
    intro g pg1 hpg1 hid1 hpin0
    by_cases hg : g = fr
    · subst hg
      rw [frameAt_set_self _ hfr0 hfrlen] at hpg1
      cases Option.some.inj hpg1
      exact absurd hpin0 (by show ¬(pg.pinCount + 1 = 0); omega)
    · rw [frameAt_set_ne _ hfr0 hg] at hpg1
      rw [hr2g g hg]
      exact hinv.unpinnedEvi g pg1 hpg1 hid1 hpin0
  · exact hinv.tableKey
  · show ∀ q v, alookup q s.table = some v → v = -1 ∨
      ∃ pg1, frameAt (s.frames.set fr.toNat { pg with pinCount := pg.pinCount + 1 }) v = some pg1 ∧
        pg1.pageId = q
    intro q v hqv
    rcases hinv.tableVal q v hqv with hv | ⟨pg1, hpg1, hidq⟩
    · exact Or.inl hv
    · by_cases hvfr : v = fr
      · subst hvfr
        rw [hpg] at hpg1
        cases Option.some.inj hpg1
        right
        exact ⟨{ pg with pinCount := pg.pinCount + 1 }, frameAt_set_self _ hfr0 hfrlen, hidq⟩
      · right
        rw [frameAt_set_ne _ hfr0 hvfr]
        exact ⟨pg1, hpg1, hidq⟩
  · show ∀ g pg1, frameAt (s.frames.set fr.toNat { pg with pinCount := pg.pinCount + 1 }) g = some pg1 →
      pg1.pageId ≠ -1 → alookup pg1.pageId s.table = some g
    intro g pg1 hpg1 hid1
    by_cases hg : g = fr
    · subst hg
      rw [frameAt_set_self _ hfr0 hfrlen] at hpg1
      cases Option.some.inj hpg1
      exact hinv.residentTable g pg hpg hid
    · rw [frameAt_set_ne _ hfr0 hg] at hpg1
      exact hinv.residentTable g pg1 hpg1 hid1
  · exact hinv.tableNodup
  · exact hinv.nextNonneg
  · exact hr2inv

/-- FetchPgImp preserves the pool invariant. -/
theorem fetchPage_inv {s s' : BPM} {p : Int} {r : Option Int} (hinv : BPMInv s)
    (h : s.fetchPage p = some (r, s')) : BPMInv s' := by
  rcases hlk : alookup p s.table with _ | fr
  · simp only [BPM.fetchPage, hlk, Option.some.injEq, Prod.mk.injEq] at h
    rw [← h.2]
    exact hinv
  · simp only [BPM.fetchPage, hlk] at h
    by_cases hfr : fr ≠ -1
    · rw [if_pos hfr] at h
      rcases hpg : s.getPage fr with _ | page
      · simp only [hpg] at h
        exact Option.noConfusion h
      · simp only [hpg, BPM.setFrame] at h
        rcases hrec : s.repl.recordAccess fr with _ | r1
        · simp only [hrec] at h
          exact Option.noConfusion h
        · simp only [hrec, Option.some.injEq, Prod.mk.injEq] at h
          obtain ⟨-, hs'⟩ := h
          subst hs'
          rcases hinv.tableVal p fr hlk with hv | ⟨pg1, hpg1, hid1⟩
          · exact absurd hv hfr
          · rw [hpg] at hpg1
            cases Option.some.inj hpg1
            have hid : page.pageId ≠ -1 := by
              have hk := hinv.tableKey p fr hlk
              rw [hid1]
              omega
            obtain ⟨hra_size, hra_curr, hra_g, n2, hn2, hevi2⟩ := recordAccess_effect hrec
            obtain ⟨hse_size, hse_fr, hse_g⟩ := setEvictable_effect_some false hn2
            refine pin_inv hinv hpg hid ?_ ?_ ?_ ?_
            · exact rinv_setEvictable r1 fr false (rinv_recordAccess hinv.rinv hrec)
            · rw [hse_size, hra_size]
            · exact ⟨_, hse_fr, rfl⟩
            · intro g hg
              rw [hse_g g hg, hra_g g hg]
    · rw [if_neg hfr] at h
      rcases hgr : s.getReplacementFrame with _ | ⟨_ | fr1, s1⟩
      · simp only [hgr] at h
        exact Option.noConfusion h
      · simp only [hgr, Option.some.injEq, Prod.mk.injEq] at h
        obtain ⟨-, hs1⟩ := h
        subst hs1
        rw [getReplacementFrame_none hgr]
        exact hinv
      · simp only [hgr] at h
        rcases hpg1 : s1.getPage fr1 with _ | page
        · simp only [hpg1] at h
          exact Option.noConfusion h
        · simp only [hpg1] at h
          obtain ⟨pg, hpgS, hpin, hpool, hframes, htable, hnext, hdisk, hr1inv, hr1size,
            hr1fr, hr1g, hflnd, hflsub, hflfr⟩ := replacementFrame_facts hinv hgr
          have hpgS2 : s.getPage fr1 = some page := by
            show frameAt s.frames fr1 = some page
            rw [← hframes]
            exact hpg1
          have hk := hinv.tableKey p fr hlk
          have hno1 : ∀ fr2 pg2, s.getPage fr2 = some pg2 → pg2.pageId ≠ p := by
            intro fr2 pg2 hp2 he
            by_cases hidp : pg2.pageId = -1
            · rw [hidp] at he
              omega
            · have hl := hinv.residentTable fr2 pg2 hp2 hidp
              rw [he, hlk] at hl
              have hfr2 := (frameAt_bounds hp2).1
              have := Option.some.inj hl
              omega
          by_cases hd : page.isDirty = true <;> by_cases hid2 : page.pageId ≠ -1
          · rw [if_pos hd, if_pos hid2] at h
            simp only [BPM.setFrame, BPM.dwrite, BPM.dread] at h
            rcases hrec : s1.repl.recordAccess fr1 with _ | r2
            · simp only [hrec] at h
              exact Option.noConfusion h
            · simp only [hrec, Option.some.injEq, Prod.mk.injEq] at h
              obtain ⟨-, hs'⟩ := h
              subst hs'
              obtain ⟨hra_size, hra_curr, hra_g, n2, hn2, hevi2⟩ := recordAccess_effect hrec
              obtain ⟨hse_size, hse_fr, hse_g⟩ := setEvictable_effect_some false hn2
              rw [hpool, hframes, htable, hnext]
              refine rebind_inv hinv _ s1.freeList _ _ _ _ hpgS2 hflsub hflnd hflfr
                (Or.inr ⟨hid2, rfl⟩) (by omega) (by omega) (by omega) hno1 ?_ ?_ ?_ ?_
              · exact rinv_setEvictable r2 fr1 false (rinv_recordAccess hr1inv hrec)
              · rw [hse_size, hra_size, hr1size]
              · exact ⟨_, hse_fr, rfl⟩
              · intro g hg
                rw [hse_g g hg, hra_g g hg, hr1g g hg]
          · rw [if_pos hd, if_neg hid2] at h
            simp only [BPM.setFrame, BPM.dwrite, BPM.dread] at h
            rcases hrec : s1.repl.recordAccess fr1 with _ | r2
            · simp only [hrec] at h
              exact Option.noConfusion h
            · simp only [hrec, Option.some.injEq, Prod.mk.injEq] at h
              obtain ⟨-, hs'⟩ := h
              subst hs'
              obtain ⟨hra_size, hra_curr, hra_g, n2, hn2, hevi2⟩ := recordAccess_effect hrec
              obtain ⟨hse_size, hse_fr, hse_g⟩ := setEvictable_effect_some false hn2
              rw [hpool, hframes, htable, hnext]
              refine rebind_inv hinv _ s1.freeList _ _ _ _ hpgS2 hflsub hflnd hflfr
                (Or.inl ⟨not_not.mp hid2, rfl⟩) (by omega) (by omega) (by omega) hno1 ?_ ?_ ?_ ?_
              · exact rinv_setEvictable r2 fr1 false (rinv_recordAccess hr1inv hrec)
              · rw [hse_size, hra_size, hr1size]
              · exact ⟨_, hse_fr, rfl⟩
              · intro g hg
                rw [hse_g g hg, hra_g g hg, hr1g g hg]
          · rw [if_neg hd, if_pos hid2] at h
            simp only [BPM.setFrame, BPM.dwrite, BPM.dread] at h
            rcases hrec : s1.repl.recordAccess fr1 with _ | r2
            · simp only [hrec] at h
              exact Option.noConfusion h
            · simp only [hrec, Option.some.injEq, Prod.mk.injEq] at h
              obtain ⟨-, hs'⟩ := h
              subst hs'
              obtain ⟨hra_size, hra_curr, hra_g, n2, hn2, hevi2⟩ := recordAccess_effect hrec
              obtain ⟨hse_size, hse_fr, hse_g⟩ := setEvictable_effect_some false hn2
              rw [hpool, hframes, htable, hnext]
              refine rebind_inv hinv _ s1.freeList _ _ _ _ hpgS2 hflsub hflnd hflfr
                (Or.inr ⟨hid2, rfl⟩) (by omega) (by omega) (by omega) hno1 ?_ ?_ ?_ ?_
              · exact rinv_setEvictable r2 fr1 false (rinv_recordAccess hr1inv hrec)
              · rw [hse_size, hra_size, hr1size]
              · exact ⟨_, hse_fr, rfl⟩
              · intro g hg
                rw [hse_g g hg, hra_g g hg, hr1g g hg]
          · rw [if_neg hd, if_neg hid2] at h
            simp only [BPM.setFrame, BPM.dwrite, BPM.dread] at h
            rcases hrec : s1.repl.recordAccess fr1 with _ | r2
            · simp only [hrec] at h
              exact Option.noConfusion h
            · simp only [hrec, Option.some.injEq, Prod.mk.injEq] at h
              obtain ⟨-, hs'⟩ := h
              subst hs'
              obtain ⟨hra_size, hra_curr, hra_g, n2, hn2, hevi2⟩ := recordAccess_effect hrec
              obtain ⟨hse_size, hse_fr, hse_g⟩ := setEvictable_effect_some false hn2
              rw [hpool, hframes, htable, hnext]
              refine rebind_inv hinv _ s1.freeList _ _ _ _ hpgS2 hflsub hflnd hflfr
                (Or.inl ⟨not_not.mp hid2, rfl⟩) (by omega) (by omega) (by omega) hno1 ?_ ?_ ?_ ?_
              · exact rinv_setEvictable r2 fr1 false (rinv_recordAccess hr1inv hrec)
              · rw [hse_size, hra_size, hr1size]
              · exact ⟨_, hse_fr, rfl⟩
              · intro g hg
                rw [hse_g g hg, hra_g g hg, hr1g g hg]

theorem frameAt_neg {l : List Frame} {fr : Int} (h : fr < 0) : frameAt l fr = none := by
  unfold frameAt
  rw [if_pos h]

/-- Preservation lemma for UnpinPgImp: the pin count of a resident page is
replaced (by its decrement) and its dirty bit rewritten, with the replacer
left consistent with the new pin count. -/
theorem unpin_upd_inv {s : BPM} (hinv : BPMInv s) {fr : Int} {pg : Frame} {r2 : LRUK}
    (npin : Nat) (nd : Bool) (dk : List (Int × Nat))
    (hpg : s.getPage fr = some pg) (hid : pg.pageId ≠ -1)
    (hr2inv : RInv r2)
    (hr2size : r2.replSize = s.repl.replSize)
    (hr2g : ∀ g, g ≠ fr → alookup g r2.nodes = alookup g s.repl.nodes)
    (hr2some : (alookup fr r2.nodes).isSome = true)
    (hfr_pin : ∀ n, alookup fr r2.nodes = some n → 0 < npin → n.evi = false)
    (hfr_unpin : npin = 0 → ∃ n, alookup fr r2.nodes = some n ∧ n.evi = true) :
    BPMInv { poolSize := s.poolSize
             frames := s.frames.set fr.toNat { pg with isDirty := nd, pinCount := npin }
             freeList := s.freeList
             table := s.table
             repl := r2
             nextPageId := s.nextPageId
             disk := dk } := by
  obtain ⟨hfr0, hfrlen⟩ := frameAt_bounds hpg
  have hfrnotfree : fr ∉ s.freeList := by
    intro hmem
    have hres := hinv.freeFrame fr hmem
    rw [hpg] at hres
    cases Option.some.inj hres
    exact hid rfl
  refine ⟨?_, ?_, ?_, ?_, ?_, ?_, ?_, ?_, ?_, ?_, ?_, ?_, ?_, ?_, ?_⟩
  · show r2.replSize = s.poolSize
    rw [hr2size, hinv.replCap]
  · show (s.frames.set fr.toNat { pg with isDirty := nd, pinCount := npin }).length = s.poolSize
    rw [List.length_set]
    exact hinv.framesLen
  · exact hinv.freeNodup
  · show ∀ g ∈ s.freeList,
      frameAt (s.frames.set fr.toNat { pg with isDirty := nd, pinCount := npin }) g = some Frame.reset
    intro g hg
    have hne : g ≠ fr := fun he => hfrnotfree (he ▸ hg)
    rw [frameAt_set_ne _ hfr0 hne]
    exact hinv.freeFrame g hg
  · show ∀ g ∈ s.freeList, alookup g r2.nodes = none
    intro g hg
    have hne : g ≠ fr := fun he => hfrnotfree (he ▸ hg)
    rw [hr2g g hne]
    exact hinv.freeNoNode g hg
  · show ∀ f n, alookup f r2.nodes = some n →
      ∃ pg1, frameAt (s.frames.set fr.toNat { pg with isDirty := nd, pinCount := npin }) f = some pg1 ∧
        pg1.pageId ≠ -1
    intro f n hn
    by_cases hf : f = fr
    · subst hf
      exact ⟨{ pg with isDirty := nd, pinCount := npin }, frameAt_set_self _ hfr0 hfrlen, hid⟩
    · rw [hr2g f hf] at hn
      obtain ⟨pg1, hpg1, hid1⟩ := hinv.nodeResident f n hn
      rw [frameAt_set_ne _ hfr0 hf]
      exact ⟨pg1, hpg1, hid1⟩
  · show ∀ g pg1,
      frameAt (s.frames.set fr.toNat { pg with isDirty := nd, pinCount := npin }) g = some pg1 →
      pg1.pageId ≠ -1 → (alookup g r2.nodes).isSome = true
    intro g pg1 hpg1 hid1
    by_cases hg : g = fr
    · subst hg
      exact hr2some
    · rw [frameAt_set_ne _ hfr0 hg] at hpg1
      rw [hr2g g hg]
      exact hinv.residentNode g pg1 hpg1 hid1
  · show ∀ g pg1 n,
      frameAt (s.frames.set fr.toNat { pg with isDirty := nd, pinCount := npin }) g = some pg1 →
      0 < pg1.pinCount → alookup g r2.nodes = some n → n.evi = false
    intro g pg1 n hpg1 hpin hn
    by_cases hg : g = fr
    · subst hg
      rw [frameAt_set_self _ hfr0 hfrlen] at hpg1
      cases Option.some.inj hpg1
      exact hfr_pin n hn hpin
    · rw [frameAt_set_ne _ hfr0 hg] at hpg1
      rw [hr2g g hg] at hn
      exact hinv.pinnedNotEvi g pg1 n hpg1 hpin hn
  · show ∀ g pg1,
      frameAt (s.frames.set fr.toNat { pg with isDirty := nd, pinCount := npin }) g = some pg1 →
      pg1.pageId ≠ -1 → pg1.pinCount = 0 → ∃ n, alookup g r2.nodes = some n ∧ n.evi = true
    intro g pg1 hpg1 hid1 hpin0
    by_cases hg : g = fr
    · subst hg
      rw [frameAt_set_self _ hfr0 hfrlen] at hpg1
      cases Option.some.inj hpg1
      exact hfr_unpin hpin0
    · rw [frameAt_set_ne _ hfr0 hg] at hpg1
      rw [hr2g g hg]
      exact hinv.unpinnedEvi g pg1 hpg1 hid1 hpin0
  · exact hinv.tableKey
  · show ∀ q v, alookup q s.table = some v → v = -1 ∨
      ∃ pg1, frameAt (s.frames.set fr.toNat { pg with isDirty := nd, pinCount := npin }) v = some pg1 ∧
        pg1.pageId = q
    intro q v hqv
    rcases hinv.tableVal q v hqv with hv | ⟨pg1, hpg1, hidq⟩
    · exact Or.inl hv
    · by_cases hvfr : v = fr
      · subst hvfr
        rw [hpg] at hpg1
        cases Option.some.inj hpg1
        right
        exact ⟨{ pg with isDirty := nd, pinCount := npin }, frameAt_set_self _ hfr0 hfrlen, hidq⟩
      · right
        rw [frameAt_set_ne _ hfr0 hvfr]
        exact ⟨pg1, hpg1, hidq⟩
  · show ∀ g pg1,
      frameAt (s.frames.set fr.toNat { pg with isDirty := nd, pinCount := npin }) g = some pg1 →
      pg1.pageId ≠ -1 → alookup pg1.pageId s.table = some g
    intro g pg1 hpg1 hid1
    by_cases hg : g = fr
    · subst hg
      rw [frameAt_set_self _ hfr0 hfrlen] at hpg1
      cases Option.some.inj hpg1
      exact hinv.residentTable g pg hpg hid
    · rw [frameAt_set_ne _ hfr0 hg] at hpg1
      exact hinv.residentTable g pg1 hpg1 hid1
  · exact hinv.tableNodup
  · exact hinv.nextNonneg
  · exact hr2inv

/-- UnpinPgImp preserves the pool invariant. -/
theorem unpinPage_inv {s s' : BPM} {p : Int} {d : Bool} {r : Bool} (hinv : BPMInv s)
    (h : s.unpinPage p d = some (r, s')) : BPMInv s' := by
  rcases hlk : alookup p s.table with _ | fr
  · simp only [BPM.unpinPage, hlk, Option.some.injEq, Prod.mk.injEq] at h
    rw [← h.2]
    exact hinv
  · simp only [BPM.unpinPage, hlk] at h
    rcases hpg : s.getPage fr with _ | page
    · simp only [hpg] at h
      exact Option.noConfusion h
    · simp only [hpg, BPM.setFrame] at h
      by_cases hpin : 0 < page.pinCount
      · rw [if_pos hpin] at h
        have hk := hinv.tableKey p fr hlk
        rcases hinv.tableVal p fr hlk with hv | ⟨pg1, hpg1, hid1⟩
        · exfalso
          rw [hv] at hpg
          have h2 : frameAt s.frames (-1) = some page := hpg
          rw [frameAt_neg (by omega)] at h2
          exact Option.noConfusion h2
        · rw [hpg] at hpg1
          cases Option.some.inj hpg1
          have hid : page.pageId ≠ -1 := by
            rw [hid1]
            omega
          have hsome := hinv.residentNode fr page hpg hid
          rcases hn : alookup fr s.repl.nodes with _ | n0
          · rw [hn] at hsome
            exact Bool.noConfusion hsome
          · by_cases hz : page.pinCount - 1 = 0
            · rw [if_pos hz] at h
              rw [Option.some.injEq, Prod.mk.injEq] at h
              obtain ⟨-, hs'⟩ := h
              subst hs'
              obtain ⟨hse_size, hse_fr, hse_g⟩ := setEvictable_effect_some true hn
              refine unpin_upd_inv hinv (page.pinCount - 1) _ _ hpg hid ?_ hse_size hse_g ?_ ?_ ?_
              · exact rinv_setEvictable s.repl fr true hinv.rinv
              · rw [hse_fr]
                rfl
              · intro n hn2 h0
                exact absurd h0 (by omega)
              · intro h0
                exact ⟨_, hse_fr, rfl⟩
            · rw [if_neg hz] at h
              rw [Option.some.injEq, Prod.mk.injEq] at h
              obtain ⟨-, hs'⟩ := h
              subst hs'
              refine unpin_upd_inv hinv (page.pinCount - 1) _ _ hpg hid hinv.rinv rfl
                (fun g hg => rfl) ?_ ?_ ?_
              · rw [hn]
                rfl
              · intro n hn2 h0
                rw [hn] at hn2
                cases Option.some.inj hn2
                exact hinv.pinnedNotEvi fr page n0 hpg hpin hn
              · intro h0
                exact absurd h0 hz
      · rw [if_neg hpin] at h
        rw [Option.some.injEq, Prod.mk.injEq] at h
        rw [← h.2]
        exact hinv

/-- FlushPgImpLockFree preserves the pool invariant. -/
theorem flushPage_inv {s s' : BPM} {p : Int} {r : Bool} (hinv : BPMInv s)
    (h : s.flushPage p = some (r, s')) : BPMInv s' := by
  rcases hlk : alookup p s.table with _ | fr
  · simp only [BPM.flushPage, hlk, Option.some.injEq, Prod.mk.injEq] at h
    rw [← h.2]
    exact hinv
  · simp only [BPM.flushPage, hlk] at h
    rcases hpg : s.getPage fr with _ | page
    · simp only [hpg] at h
      exact Option.noConfusion h
    · simp only [hpg, BPM.setFrame, BPM.dwrite, Option.some.injEq, Prod.mk.injEq] at h
      obtain ⟨-, hs'⟩ := h
      subst hs'
      have hk := hinv.tableKey p fr hlk
      rcases hinv.tableVal p fr hlk with hv | ⟨pg1, hpg1, hid1⟩
      · exfalso
        rw [hv] at hpg
        have h2 : frameAt s.frames (-1) = some page := hpg
        rw [frameAt_neg (by omega)] at h2
        exact Option.noConfusion h2
      · rw [hpg] at hpg1
        cases Option.some.inj hpg1
        have hid : page.pageId ≠ -1 := by
          rw [hid1]
          omega
        have hsome := hinv.residentNode fr page hpg hid
        refine unpin_upd_inv hinv page.pinCount false _ hpg hid hinv.rinv rfl
          (fun g hg => rfl) hsome ?_ ?_
        · intro n hn2 h0
          exact hinv.pinnedNotEvi fr page n hpg h0 hn2
        · intro h0
          exact hinv.unpinnedEvi fr page hpg hid h0

theorem remove_some_effect {s : LRUK} {f : Int} {r1 : LRUK} (hinv : RInv s)
    (h : s.remove f = some r1) :
    r1.replSize = s.replSize ∧ alookup f r1.nodes = none ∧
      (∀ g, g ≠ f → alookup g r1.nodes = alookup g s.nodes) := by
  rcases hn : alookup f s.nodes with _ | n
  · simp only [LRUK.remove, hn, Option.some.injEq] at h
    rw [← h]
    exact ⟨rfl, hn, fun g hg => rfl⟩
  · simp only [LRUK.remove, hn] at h
    by_cases he : n.evi = true
    · rw [if_pos he, Option.some.injEq] at h
      rw [← h]
      exact ⟨rfl, alookup_aerase_self hinv.mapNodup, fun g hg => alookup_aerase_ne hg s.nodes⟩
    · rw [if_neg he] at h
      exact Option.noConfusion h

/-- Preservation lemma for the resident branch of DeletePgImp: the frame is
reset, returned to the free list, and forgotten by replacer and page table. -/
theorem delete_resident_inv {s : BPM} (hinv : BPMInv s) {p fr : Int} {page : Frame} {r1 : LRUK}
    (dk : List (Int × Nat))
    (hlk : alookup p s.table = some fr)
    (hpg : s.getPage fr = some page)
    (hpid : page.pageId = p)
    (hid : page.pageId ≠ -1)
    (hr1inv : RInv r1)
    (hr1size : r1.replSize = s.repl.replSize)
    (hr1fr : alookup fr r1.nodes = none)
    (hr1g : ∀ g, g ≠ fr → alookup g r1.nodes = alookup g s.repl.nodes) :
    BPMInv { poolSize := s.poolSize
             frames := s.frames.set fr.toNat Frame.reset
             freeList := s.freeList ++ [fr]
             table := aerase p s.table
             repl := r1
             nextPageId := s.nextPageId
             disk := dk } := by
  obtain ⟨hfr0, hfrlen⟩ := frameAt_bounds hpg
  have hfrnotfree : fr ∉ s.freeList := by
    intro hmem
    have hres := hinv.freeFrame fr hmem
    rw [hpg] at hres
    cases Option.some.inj hres
    exact hid rfl
  refine ⟨?_, ?_, ?_, ?_, ?_, ?_, ?_, ?_, ?_, ?_, ?_, ?_, ?_, ?_, ?_⟩
  · show r1.replSize = s.poolSize
    rw [hr1size, hinv.replCap]
  · show (s.frames.set fr.toNat Frame.reset).length = s.poolSize
    rw [List.length_set]
    exact hinv.framesLen
  · show (s.freeList ++ [fr]).Nodup
    rw [List.nodup_append]
    refine ⟨hinv.freeNodup, List.nodup_singleton fr, ?_⟩
    intro a ha hb
    rw [List.mem_singleton] at hb
    subst hb
    exact hfrnotfree ha
  · show ∀ g ∈ s.freeList ++ [fr], frameAt (s.frames.set fr.toNat Frame.reset) g = some Frame.reset
    intro g hg
    rcases List.mem_append.mp hg with hg1 | hg1
    · have hne : g ≠ fr := fun he => hfrnotfree (he ▸ hg1)
      rw [frameAt_set_ne _ hfr0 hne]
      exact hinv.freeFrame g hg1
    · rw [List.mem_singleton] at hg1
      subst hg1
      exact frameAt_set_self _ hfr0 hfrlen
  · show ∀ g ∈ s.freeList ++ [fr], alookup g r1.nodes = none
    intro g hg
    rcases List.mem_append.mp hg with hg1 | hg1
    · have hne : g ≠ fr := fun he => hfrnotfree (he ▸ hg1)
      rw [hr1g g hne]
      exact hinv.freeNoNode g hg1
    · rw [List.mem_singleton] at hg1
      subst hg1
      exact hr1fr
  · show ∀ f n, alookup f r1.nodes = some n →
      ∃ pg1, frameAt (s.frames.set fr.toNat Frame.reset) f = some pg1 ∧ pg1.pageId ≠ -1
    intro f n hn
    by_cases hf : f = fr
    · subst hf
      rw [hr1fr] at hn
      exact Option.noConfusion hn
    · rw [hr1g f hf] at hn
      obtain ⟨pg1, hpg1, hid1⟩ := hinv.nodeResident f n hn
      rw [frameAt_set_ne _ hfr0 hf]
      exact ⟨pg1, hpg1, hid1⟩
  · show ∀ g pg1, frameAt (s.frames.set fr.toNat Frame.reset) g = some pg1 →
      pg1.pageId ≠ -1 → (alookup g r1.nodes).isSome = true
    intro g pg1 hpg1 hid1
    by_cases hg : g = fr
    · subst hg
      rw [frameAt_set_self _ hfr0 hfrlen] at hpg1
      cases Option.some.inj hpg1
      exact absurd rfl hid1
    · rw [frameAt_set_ne _ hfr0 hg] at hpg1
      rw [hr1g g hg]
      exact hinv.residentNode g pg1 hpg1 hid1
  · show ∀ g pg1 n, frameAt (s.frames.set fr.toNat Frame.reset) g = some pg1 →
      0 < pg1.pinCount → alookup g r1.nodes = some n → n.evi = false
    intro g pg1 n hpg1 hpin hn
    by_cases hg : g = fr
    · subst hg
      rw [frameAt_set_self _ hfr0 hfrlen] at hpg1
      cases Option.some.inj hpg1
      exact absurd hpin (by decide)
    · rw [frameAt_set_ne _ hfr0 hg] at hpg1
      rw [hr1g g hg] at hn
      exact hinv.pinnedNotEvi g pg1 n hpg1 hpin hn
  · show ∀ g pg1, frameAt (s.frames.set fr.toNat Frame.reset) g = some pg1 →
      pg1.pageId ≠ -1 → pg1.pinCount = 0 → ∃ n, alookup g r1.nodes = some n ∧ n.evi = true
    intro g pg1 hpg1 hid1 hpin0
    by_cases hg : g = fr
    · subst hg
      rw [frameAt_set_self _ hfr0 hfrlen] at hpg1
      cases Option.some.inj hpg1
      exact absurd rfl hid1
    · rw [frameAt_set_ne _ hfr0 hg] at hpg1
      rw [hr1g g hg]
      exact hinv.unpinnedEvi g pg1 hpg1 hid1 hpin0
  · show ∀ q v, alookup q (aerase p s.table) = some v → 0 ≤ q ∧ q < s.nextPageId
    intro q v hqv
    by_cases hq : q = p
    · subst hq
      rw [alookup_aerase_self hinv.tableNodup] at hqv
      exact Option.noConfusion hqv
    · rw [alookup_aerase_ne hq] at hqv
      exact hinv.tableKey q v hqv
  · show ∀ q v, alookup q (aerase p s.table) = some v → v = -1 ∨
      ∃ pg1, frameAt (s.frames.set fr.toNat Frame.reset) v = some pg1 ∧ pg1.pageId = q
    intro q v hqv
    by_cases hq : q = p
    · subst hq
      rw [alookup_aerase_self hinv.tableNodup] at hqv
      exact Option.noConfusion hqv
    · rw [alookup_aerase_ne hq] at hqv
      rcases hinv.tableVal q v hqv with hv | ⟨pg1, hpg1, hidq⟩
      · exact Or.inl hv
      · have hvfr : v ≠ fr := by
          intro he
          rw [he, hpg] at hpg1
          cases Option.some.inj hpg1
          rw [hidq] at hpid
          exact hq hpid
        right
        rw [frameAt_set_ne _ hfr0 hvfr]
        exact ⟨pg1, hpg1, hidq⟩
  · show ∀ g pg1, frameAt (s.frames.set fr.toNat Frame.reset) g = some pg1 →
      pg1.pageId ≠ -1 → alookup pg1.pageId (aerase p s.table) = some g
    intro g pg1 hpg1 hid1
    by_cases hg : g = fr
    · subst hg
      rw [frameAt_set_self _ hfr0 hfrlen] at hpg1
      cases Option.some.inj hpg1
      exact absurd rfl hid1
    · rw [frameAt_set_ne _ hfr0 hg] at hpg1
      have hold := hinv.residentTable g pg1 hpg1 hid1
      have hne : pg1.pageId ≠ p := by
        intro he
        rw [he, hlk] at hold
        exact hg (Option.some.inj hold).symm
      rw [alookup_aerase_ne hne]
      exact hold
  · show ((aerase p s.table).map Prod.fst).Nodup
    exact aerase_nodup hinv.tableNodup
  · exact hinv.nextNonneg
  · exact hr1inv

/-- Preservation lemma for the sentinel branch of DeletePgImp: only the
page-table entry disappears. -/
theorem delete_sentinel_inv {s : BPM} (hinv : BPMInv s) {p : Int}
    (hlk : alookup p s.table = some (-1)) :
    BPMInv { s with table := aerase p s.table } := by
  refine ⟨hinv.replCap, hinv.framesLen, hinv.freeNodup, hinv.freeFrame, hinv.freeNoNode,
    hinv.nodeResident, hinv.residentNode, hinv.pinnedNotEvi, hinv.unpinnedEvi,
    ?_, ?_, ?_, ?_, hinv.nextNonneg, hinv.rinv⟩
  · show ∀ q v, alookup q (aerase p s.table) = some v → 0 ≤ q ∧ q < s.nextPageId
    intro q v hqv
    by_cases hq : q = p
    · subst hq
      rw [alookup_aerase_self hinv.tableNodup] at hqv
      exact Option.noConfusion hqv
    · rw [alookup_aerase_ne hq] at hqv
      exact hinv.tableKey q v hqv
  · show ∀ q v, alookup q (aerase p s.table) = some v → v = -1 ∨
      ∃ pg1, s.getPage v = some pg1 ∧ pg1.pageId = q
    intro q v hqv
    by_cases hq : q = p
    · subst hq
      rw [alookup_aerase_self hinv.tableNodup] at hqv
      exact Option.noConfusion hqv
    · rw [alookup_aerase_ne hq] at hqv
      exact hinv.tableVal q v hqv
  · show ∀ g pg1, s.getPage g = some pg1 → pg1.pageId ≠ -1 →
      alookup pg1.pageId (aerase p s.table) = some g
    intro g pg1 hpg1 hid1
    have hold := hinv.residentTable g pg1 hpg1 hid1
    have hne : pg1.pageId ≠ p := by
      intro he
      rw [he, hlk] at hold
      have hg0 := (frameAt_bounds hpg1).1
      have := Option.some.inj hold
      omega
    rw [alookup_aerase_ne hne]
    exact hold
  · show ((aerase p s.table).map Prod.fst).Nodup
    exact aerase_nodup hinv.tableNodup

/-- DeletePgImp preserves the pool invariant. -/
theorem deletePage_inv {s s' : BPM} {p : Int} {r : Bool} (hinv : BPMInv s)
    (h : s.deletePage p = some (r, s')) : BPMInv s' := by
  rcases hlk : alookup p s.table with _ | fr
  · simp only [BPM.deletePage, hlk, Option.some.injEq, Prod.mk.injEq] at h
    rw [← h.2]
    exact hinv
  · simp only [BPM.deletePage, hlk] at h
    by_cases hfr : fr ≠ -1
    · rw [if_pos hfr] at h
      rcases hpg : s.getPage fr with _ | page
      · simp only [hpg] at h
        exact Option.noConfusion h
      · simp only [hpg] at h
        by_cases hz : page.pinCount = 0
        · rw [if_pos hz] at h
          have hk := hinv.tableKey p fr hlk
          rcases hinv.tableVal p fr hlk with hv | ⟨pg1, hpg1, hid1⟩
          · exact absurd hv hfr
          · rw [hpg] at hpg1
            cases Option.some.inj hpg1
            have hid : page.pageId ≠ -1 := by
              rw [hid1]
              omega
            by_cases hd : page.isDirty = true <;>
              [rw [if_pos hd] at h; rw [if_neg hd] at h] <;>
              simp only [BPM.setFrame, BPM.dwrite] at h <;>
              rcases hrem : s.repl.remove fr with _ | r1
            · simp only [hrem] at h
              exact Option.noConfusion h
            · simp only [hrem, Option.some.injEq, Prod.mk.injEq] at h
              obtain ⟨-, hs'⟩ := h
              subst hs'
              obtain ⟨hr1size, hr1fr, hr1g⟩ := remove_some_effect hinv.rinv hrem
              exact delete_resident_inv hinv _ hlk hpg hid1 hid
                (rinv_remove hinv.rinv hrem) hr1size hr1fr hr1g
            · simp only [hrem] at h
              exact Option.noConfusion h
            · simp only [hrem, Option.some.injEq, Prod.mk.injEq] at h
              obtain ⟨-, hs'⟩ := h
              subst hs'
              obtain ⟨hr1size, hr1fr, hr1g⟩ := remove_some_effect hinv.rinv hrem
              exact delete_resident_inv hinv _ hlk hpg hid1 hid
                (rinv_remove hinv.rinv hrem) hr1size hr1fr hr1g
        · rw [if_neg hz] at h
          rw [Option.some.injEq, Prod.mk.injEq] at h
          rw [← h.2]
          exact hinv
    · rw [if_neg hfr] at h
      have hfrm1 : fr = -1 := not_not.mp hfr
      subst hfrm1
      have hnone : alookup (-1) s.repl.nodes = none := by
        rcases hn : alookup (-1) s.repl.nodes with _ | n
        · rfl
        · obtain ⟨pg1, hpg1, -⟩ := hinv.nodeResident (-1) n hn
          have h2 : frameAt s.frames (-1) = some pg1 := hpg1
          rw [frameAt_neg (by omega)] at h2
          exact Option.noConfusion h2
      rw [remove_not_found hnone] at h
      rw [Option.some.injEq, Prod.mk.injEq] at h
      obtain ⟨-, hs'⟩ := h
      subst hs'
      exact delete_sentinel_inv hinv hlk

/-- A freshly constructed pool satisfies the invariant. -/
theorem mkNew_inv (poolSize k : Nat) : BPMInv (BPM.mkNew poolSize k) := by
  refine ⟨rfl, ?_, ?_, ?_, fun fr _ => rfl, ?_, ?_, ?_, ?_, ?_, ?_, ?_, ?_, le_refl 0,
    rinv_mkNew poolSize k⟩
  · show (List.replicate poolSize Frame.reset).length = poolSize
    exact List.length_replicate poolSize Frame.reset
  · show ((List.range poolSize).map Int.ofNat).Nodup
    exact List.Nodup.map (fun a b hab => Int.ofNat.inj hab) (List.nodup_range poolSize)
  · show ∀ fr ∈ (List.range poolSize).map Int.ofNat,
      frameAt (List.replicate poolSize Frame.reset) fr = some Frame.reset
    intro fr hfr
    obtain ⟨i, hi, rfl⟩ := List.mem_map.mp hfr
    have hin : i < poolSize := List.mem_range.mp hi
    unfold frameAt
    rw [if_neg (by simp [Int.ofNat_eq_coe]), List.getElem?_replicate,
      if_pos (show (Int.ofNat i).toNat < poolSize from lt_of_eq_of_lt (Int.toNat_ofNat i) hin)]
  · intro f n hn
    exact Option.noConfusion hn
  · intro g pg hpg hid
    have hr := frameAt_replicate hpg
    rw [hr] at hid
    exact absurd rfl hid
  · intro g pg n hpg hpin hn
    exact Option.noConfusion hn
  · intro g pg hpg hid hpin
    have hr := frameAt_replicate hpg
    rw [hr] at hid
    exact absurd rfl hid
  · intro q v hqv
    exact Option.noConfusion hqv
  · intro q v hqv
    exact Option.noConfusion hqv
  · intro g pg hpg hid
    have hr := frameAt_replicate hpg
    rw [hr] at hid
    exact absurd rfl hid
  · exact List.nodup_nil

/-- Every reachable buffer pool state satisfies the invariant. -/
theorem reach_inv {s : BPM} (h : Reach s) : BPMInv s := by
  induction h with
  | init poolSize k => exact mkNew_inv poolSize k
  | newPg hr hstep ih => exact newPage_inv ih hstep
  | fetch p hr hstep ih => exact fetchPage_inv ih hstep
  | unpin p d hr hstep ih => exact unpinPage_inv ih hstep
  | flush p hr hstep ih => exact flushPage_inv ih hstep
  | delete p hr hstep ih => exact deletePage_inv ih hstep

/-- C8: in every reachable buffer-pool state, a frame holding a page with a
positive pin count is neither on the free list nor in the replacer's
evictable set. -/
theorem c8_pinned_not_evictable {s : BPM} {fr : Int} {pg : Frame} (hreach : Reach s)
    (hpg : s.getPage fr = some pg) (hpin : 0 < pg.pinCount) :
    fr ∉ s.freeList ∧ s.repl.evictableB fr = false := by
  have hinv := reach_inv hreach
  constructor
  · intro hmem
    have hres := hinv.freeFrame fr hmem
    rw [hpg] at hres
    cases Option.some.inj hres
    exact absurd hpin (by decide)
  · unfold LRUK.evictableB
    rcases hn : alookup fr s.repl.nodes with _ | n
    · rfl
    · exact hinv.pinnedNotEvi fr pg n hpg hpin hn

/-- Witness for C8: after NewPage on a fresh one-frame pool, the frame
holding the pinned page 0 is neither free nor evictable. -/
theorem c8_pinned_not_evictable_witness :
    (0 : Int) ∉ pinnedState.freeList ∧ pinnedState.repl.evictableB 0 = false :=
  c8_pinned_not_evictable (Reach.newPg (Reach.init 1 2) rfl) rfl (by decide)

/-- C2: `sentinelState` is reachable and maps page 0 to the `-1` sentinel, so
page 0 is not resident; UnpinPgImp nevertheless indexes `pages_[-1]`
(modelled `none`) instead of returning false as the claim requires. -/
theorem c2_unpin_sentinel_out_of_bounds :
    Reach sentinelState ∧ alookup 0 sentinelState.table = some (-1) ∧
      sentinelState.unpinPage 0 false = none := by
  refine ⟨?_, rfl, rfl⟩
  exact Reach.newPg (Reach.unpin 0 false (Reach.newPg (Reach.init 1 2) rfl) rfl) rfl

/-- C7: on the same reachable sentinel state, FlushPgImpLockFree indexes
`pages_[-1]` (modelled `none`) instead of returning false for the
non-resident page 0 as the claim requires. -/
theorem c7_flush_sentinel_out_of_bounds :
    Reach sentinelState ∧ alookup 0 sentinelState.table = some (-1) ∧
      sentinelState.flushPage 0 = none := by
  refine ⟨?_, rfl, rfl⟩
  exact Reach.newPg (Reach.unpin 0 false (Reach.newPg (Reach.init 1 2) rfl) rfl) rfl

/-- C3 counterexample: DeletePage on a page absent from the page table
returns false (the claim asserts it succeeds vacuously with true). -/
theorem c3_delete_absent_returns_false :
    (BPM.mkNew 1 2).deletePage 0 = some (false, BPM.mkNew 1 2) := rfl

/-- C3 (amended): in every reachable state, DeletePage returns false (not
true) with no state change on a page absent from the table; dropping the
table entry and reporting true on a `-1` sentinel entry; false with no state
change on a resident pinned page; and on a resident unpinned page it writes
back when dirty, resets the frame, forgets it in replacer and table, appends
it to the free list and reports true. -/
theorem c3_delete_characterization {s : BPM} (p : Int) (hreach : Reach s) :
    (alookup p s.table = none → s.deletePage p = some (false, s)) ∧
    (alookup p s.table = some (-1) →
      s.deletePage p = some (true, { s with table := aerase p s.table })) ∧
    (∀ fr pg, alookup p s.table = some fr → fr ≠ -1 → s.getPage fr = some pg →
      (0 < pg.pinCount → s.deletePage p = some (false, s)) ∧
      (pg.pinCount = 0 → ∃ s1, s.deletePage p = some (true, s1) ∧
        s1.freeList = s.freeList ++ [fr] ∧ s1.table = aerase p s.table ∧
        s1.getPage fr = some Frame.reset ∧ alookup fr s1.repl.nodes = none ∧
        s1.disk = (if pg.isDirty then aupsert p pg.data s.disk else s.disk))) := by
  have hinv := reach_inv hreach
  refine ⟨?_, ?_, ?_⟩
  · intro hlk
    simp only [BPM.deletePage, hlk]
  · intro hlk
    have hnone : alookup (-1) s.repl.nodes = none := by
      rcases hn : alookup (-1) s.repl.nodes with _ | n
      · rfl
      · obtain ⟨pg1, hpg1, -⟩ := hinv.nodeResident (-1) n hn
        have h2 : frameAt s.frames (-1) = some pg1 := hpg1
        rw [frameAt_neg (by omega)] at h2
        exact Option.noConfusion h2
    simp only [BPM.deletePage, hlk]
    rw [if_neg (fun hc => hc rfl)]
    simp only [remove_not_found hnone]
  · intro fr pg hlk hfr hpg
    constructor
    · intro hpin
      simp only [BPM.deletePage, hlk]
      rw [if_pos hfr]
      simp only [hpg]
      rw [if_neg (by omega)]
    · intro hz
      have hk := hinv.tableKey p fr hlk
      rcases hinv.tableVal p fr hlk with hv | ⟨pg1, hpg1, hid1⟩
      · exact absurd hv hfr
      · rw [hpg] at hpg1
        cases Option.some.inj hpg1
        have hid : pg.pageId ≠ -1 := by
          rw [hid1]
          omega
        obtain ⟨hfr0, hfrlen⟩ := frameAt_bounds hpg
        obtain ⟨n, hn, hevi⟩ := hinv.unpinnedEvi fr pg hpg hid hz
        obtain ⟨r1, hrem, hr1size, hr1none, hr1g⟩ := remove_effect hinv.rinv hn hevi
        by_cases hd : pg.isDirty = true
        · refine ⟨{ poolSize := s.poolSize
                    frames := s.frames.set fr.toNat Frame.reset
                    freeList := s.freeList ++ [fr]
                    table := aerase p s.table
                    repl := r1
                    nextPageId := s.nextPageId
                    disk := aupsert p pg.data s.disk }, ?_, rfl, rfl, ?_, hr1none, ?_⟩
          · simp only [BPM.deletePage, hlk]
            rw [if_pos hfr]
            simp only [hpg]
            rw [if_pos hz, if_pos hd]
            simp only [BPM.setFrame, BPM.dwrite, hrem]
          · exact frameAt_set_self _ hfr0 hfrlen
          · rw [if_pos hd]
        · refine ⟨{ poolSize := s.poolSize
                    frames := s.frames.set fr.toNat Frame.reset
                    freeList := s.freeList ++ [fr]
                    table := aerase p s.table
                    repl := r1
                    nextPageId := s.nextPageId
                    disk := s.disk }, ?_, rfl, rfl, ?_, hr1none, ?_⟩
          · simp only [BPM.deletePage, hlk]
            rw [if_pos hfr]
            simp only [hpg]
            rw [if_pos hz, if_neg hd]
            simp only [BPM.setFrame, hrem]
          · exact frameAt_set_self _ hfr0 hfrlen
          · rw [if_neg hd]

/-- Witness for C3: on a fresh pool (reachable) any page id is absent and
DeletePage reports false. -/
theorem c3_delete_characterization_witness :
    (BPM.mkNew 1 2).deletePage 7 = some (false, BPM.mkNew 1 2) :=
  (c3_delete_characterization 7 (Reach.init 1 2)).1 rfl

/-- C6 counterexample: on a fresh pool every frame is free, yet FetchPage of
a page absent from the page table fails immediately instead of reading it
from disk into a free frame. -/
theorem c6_fetch_absent_fails_with_free_frames :
    (BPM.mkNew 1 2).fetchPage 0 = some (none, BPM.mkNew 1 2) ∧
      (BPM.mkNew 1 2).freeList ≠ [] := ⟨rfl, by decide⟩

/-- C6 (amended): in every reachable state, FetchPage of a page absent from
the table fails immediately regardless of frame availability; a resident
page is pinned and made non-evictable; only a page behind the `-1` sentinel
is reloaded through a replacement frame, failing exactly when the free list
is empty and the replacer holds no evictable frame. -/
theorem c6_fetch_characterization {s : BPM} (p : Int) (hreach : Reach s) :
    (alookup p s.table = none → s.fetchPage p = some (none, s)) ∧
    (∀ fr, alookup p s.table = some fr → fr ≠ -1 →
      ∃ pg r1, s.getPage fr = some pg ∧ s.repl.recordAccess fr = some r1 ∧
        s.fetchPage p = some (some fr,
          { poolSize := s.poolSize
            frames := s.frames.set fr.toNat { pg with pinCount := pg.pinCount + 1 }
            freeList := s.freeList
            table := s.table
            repl := r1.setEvictable fr false
            nextPageId := s.nextPageId
            disk := s.disk }) ∧
        (r1.setEvictable fr false).evictableB fr = false) ∧
    (alookup p s.table = some (-1) →
      ((s.freeList = [] ∧ s.repl.currSize = 0) → s.fetchPage p = some (none, s)) ∧
      ((s.freeList ≠ [] ∨ 0 < s.repl.currSize) →
        ∃ fr1 s1, s.fetchPage p = some (some fr1, s1))) := by
  have hinv := reach_inv hreach
  refine ⟨?_, ?_, ?_⟩
  · intro hlk
    simp only [BPM.fetchPage, hlk]
  · intro fr hlk hfr
    rcases hinv.tableVal p fr hlk with hv | ⟨pg, hpg, hid1⟩
    · exact absurd hv hfr
    · obtain ⟨hfr0, hfrlen⟩ := frameAt_bounds hpg
      have hbound : fr.toNat ≤ s.repl.replSize := by
        rw [hinv.replCap, ← hinv.framesLen]
        omega
      obtain ⟨r1, hrec⟩ := recordAccess_some hfr0 hbound
      obtain ⟨hra_size, hra_curr, hra_g, n2, hn2, hevi2⟩ := recordAccess_effect hrec
      obtain ⟨hse_size, hse_fr, hse_g⟩ := setEvictable_effect_some false hn2
      refine ⟨pg, r1, hpg, hrec, ?_, ?_⟩
      · simp only [BPM.fetchPage, hlk]
        rw [if_pos hfr]
        simp only [hpg, BPM.setFrame, hrec]
      · unfold LRUK.evictableB
        rw [hse_fr]
        rfl
  · intro hlk
    constructor
    · rintro ⟨hfl, hcz⟩
      simp only [BPM.fetchPage, hlk]
      rw [if_neg (fun hc => hc rfl)]
      simp only [BPM.getReplacementFrame, hfl, evict_zero hcz]
      rw [← hfl]
    · intro hor
      rcases hfl : s.freeList with _ | ⟨f0, rest⟩
      · have hc : 0 < s.repl.currSize := by
          rcases hor with h1 | h1
          · exact absurd hfl h1
          · exact h1
        obtain ⟨f0, r1e, hev⟩ := evict_pos_some hinv.rinv hc
        have hgrf : s.getReplacementFrame = some (some f0, { s with repl := r1e }) := by
          simp only [BPM.getReplacementFrame, hfl, hev]
        obtain ⟨pg, hpgS, hpin, hpool, hframes, htable, hnext, hdisk, hr1inv, hr1size,
          hr1fr, hr1g, hflnd, hflsub, hflfr⟩ := replacementFrame_facts hinv hgrf
        have hpg1 : ({ s with repl := r1e } : BPM).getPage f0 = some pg := hpgS
        obtain ⟨hfr0, hfrlen⟩ := frameAt_bounds hpgS
        have hb2 : (r1e : LRUK).replSize = s.repl.replSize := hr1size
        have hbound : f0.toNat ≤ (r1e : LRUK).replSize := by
          rw [hb2, hinv.replCap, ← hinv.framesLen]
          omega
        obtain ⟨r2, hrec⟩ := recordAccess_some hfr0 hbound
        by_cases hd : pg.isDirty = true <;> by_cases hid2 : pg.pageId ≠ -1
        · refine ⟨f0, ?_⟩
          simp only [BPM.fetchPage, hlk]
          rw [if_neg (fun hc => hc rfl)]
          simp only [hgrf, hpg1]
          rw [if_pos hd, if_pos hid2]
          simp only [BPM.setFrame, BPM.dwrite, BPM.dread, hrec]
          exact ⟨_, rfl⟩
        · refine ⟨f0, ?_⟩
          simp only [BPM.fetchPage, hlk]
          rw [if_neg (fun hc => hc rfl)]
          simp only [hgrf, hpg1]
          rw [if_pos hd, if_neg hid2]
          simp only [BPM.setFrame, BPM.dwrite, BPM.dread, hrec]
          exact ⟨_, rfl⟩
        · refine ⟨f0, ?_⟩
          simp only [BPM.fetchPage, hlk]
          rw [if_neg (fun hc => hc rfl)]
          simp only [hgrf, hpg1]
          rw [if_neg hd, if_pos hid2]
          simp only [BPM.setFrame, BPM.dwrite, BPM.dread, hrec]
          exact ⟨_, rfl⟩
        · refine ⟨f0, ?_⟩
          simp only [BPM.fetchPage, hlk]
          rw [if_neg (fun hc => hc rfl)]
          simp only [hgrf, hpg1]
          rw [if_neg hd, if_neg hid2]
          simp only [BPM.setFrame, BPM.dwrite, BPM.dread, hrec]
          exact ⟨_, rfl⟩
      · have hgrf : s.getReplacementFrame = some (some f0, { s with freeList := rest }) := by
          simp only [BPM.getReplacementFrame, hfl]
        obtain ⟨pg, hpgS, hpin, hpool, hframes, htable, hnext, hdisk, hr1inv, hr1size,
          hr1fr, hr1g, hflnd, hflsub, hflfr⟩ := replacementFrame_facts hinv hgrf
        have hpg1 : ({ s with freeList := rest } : BPM).getPage f0 = some pg := hpgS
        obtain ⟨hfr0, hfrlen⟩ := frameAt_bounds hpgS
        have hb2 : (s.repl : LRUK).replSize = s.repl.replSize := hr1size
        have hbound : f0.toNat ≤ (s.repl : LRUK).replSize := by
          rw [hb2, hinv.replCap, ← hinv.framesLen]
          omega
        obtain ⟨r2, hrec⟩ := recordAccess_some hfr0 hbound
        by_cases hd : pg.isDirty = true <;> by_cases hid2 : pg.pageId ≠ -1
        · refine ⟨f0, ?_⟩
          simp only [BPM.fetchPage, hlk]
          rw [if_neg (fun hc => hc rfl)]
          simp only [hgrf, hpg1]
          rw [if_pos hd, if_pos hid2]
          simp only [BPM.setFrame, BPM.dwrite, BPM.dread, hrec]
          exact ⟨_, rfl⟩
        · refine ⟨f0, ?_⟩
          simp only [BPM.fetchPage, hlk]
          rw [if_neg (fun hc => hc rfl)]
          simp only [hgrf, hpg1]
          rw [if_pos hd, if_neg hid2]
          simp only [BPM.setFrame, BPM.dwrite, BPM.dread, hrec]
          exact ⟨_, rfl⟩
        · refine ⟨f0, ?_⟩
          simp only [BPM.fetchPage, hlk]
          rw [if_neg (fun hc => hc rfl)]
          simp only [hgrf, hpg1]
          rw [if_neg hd, if_pos hid2]
          simp only [BPM.setFrame, BPM.dwrite, BPM.dread, hrec]
          exact ⟨_, rfl⟩
        · refine ⟨f0, ?_⟩
          simp only [BPM.fetchPage, hlk]
          rw [if_neg (fun hc => hc rfl)]
          simp only [hgrf, hpg1]
          rw [if_neg hd, if_neg hid2]
          simp only [BPM.setFrame, BPM.dwrite, BPM.dread, hrec]
          exact ⟨_, rfl⟩

/-- Witness for C6: FetchPage of an absent page on a fresh (reachable) pool
fails at once. -/
theorem c6_fetch_characterization_witness :
    (BPM.mkNew 1 2).fetchPage 3 = some (none, BPM.mkNew 1 2) :=
  (c6_fetch_characterization 3 (Reach.init 1 2)).1 rfl

end BusTub
